import Mathlib

/-!
Verification of the GoodEvil simulation engine (`src/board.rs`, `src/simulation.rs`).

Floating-point energies (`f32`) are embedded as exact rationals (`ℚ`); Rust panics
(slice index failure, `assert!`, explicit `panic!`) are embedded as `Option`/`Except`
error results.  The pseudorandom generator is external to the repository (the `rand`
crate); it is modelled from the spec as a deterministic stream of naturals, reduced
into the requested range, which is faithful to the required capability surface
(uniform integer sampling over a range, in-place shuffle).
-/

namespace ModelCell

/-- Modelled from the spec: the `rand` crate's seedable generator (`StdRng`), a
capability consumed by the engine (§6).  A deterministic stream of naturals with a
read position. -/
structure Rng where
  stream : Nat → Nat
  pos : Nat

/-- Modelled from the spec: `rng.gen_range(lo, hi)` — uniform integer sampling over
`[lo, hi)`.  The next stream value is reduced into the range. -/
def Rng.genRange (rng : Rng) (lo hi : Nat) : Nat × Rng :=
  (lo + rng.stream rng.pos % (hi - lo), ⟨rng.stream, rng.pos + 1⟩)

/-- `Specimen` from `src/simulation.rs`: a single scalar energy. -/
structure Specimen where
  energy : ℚ
deriving DecidableEq, Repr

/-- The per-cell occupancy variant `Field` from `src/simulation.rs`. -/
inductive Field where
  | Empty : Field
  | Occupied (s : Specimen) : Field
  | Collision (ss : List Specimen) : Field
deriving DecidableEq, Repr

/-- Modelled from the spec: `rng.shuffle(&mut fields)` — the in-place pseudorandom
permutation capability of the `rand` crate (§6).  A selection shuffle driven by
`gen_range`: repeatedly draw an index, move that element to the front. -/
def shuffleGo : Nat → Rng → List (Nat × Nat) → List (Nat × Nat) × Rng
  | 0, rng, l => (l, rng)
  | fuel + 1, rng, l =>
    match l with
    | [] => ([], rng)
    | _ :: _ =>
      let (k, rng1) := rng.genRange 0 l.length
      match l.get? k with
      | some a =>
        let (rest, rng2) := shuffleGo fuel rng1 (l.erase a)
        (a :: rest, rng2)
      | none => (l, rng1)

/-- Modelled from the spec: shuffle an entire list (fuel = list length suffices). -/
def shuffle (rng : Rng) (l : List (Nat × Nat)) : List (Nat × Nat) × Rng :=
  shuffleGo l.length rng l

/-- `Board<T>` from `src/board.rs`: a flat row-major array plus extents. -/
structure Board (α : Type) where
  fields : List α
  width : Nat
  height : Nat

/-- `Board::new` from `src/board.rs`: fill `width * height` cells with a default. -/
def Board.new (width height : Nat) (default : α) : Board α :=
  ⟨List.replicate (width * height) default, width, height⟩

/-- `Board::at` from `src/board.rs`: read `fields[y * width + x]`.  Rust's slice
indexing panics when the flat index is out of range; `none` embeds that panic. -/
def Board.at (b : Board α) (x y : Nat) : Option α :=
  b.fields.get? (y * b.width + x)

/-- `Board::at_mut` followed by a store, as an explicit checked write: `none` embeds
the Rust panic when the flat index `y * width + x` falls outside the array. -/
def Board.set? (b : Board α) (x y : Nat) (v : α) : Option (Board α) :=
  if y * b.width + x < b.fields.length then
    some { b with fields := b.fields.set (y * b.width + x) v }
  else
    none

/-- The store through `Board::at_mut` as a total function (callers of this model
first witness the flat index in range through `Board.at`). -/
def Board.setCell (b : Board α) (x y : Nat) (v : α) : Board α :=
  { b with fields := b.fields.set (y * b.width + x) v }

/-- `Board::indices` / `indices_2d` from `src/board.rs`: all `(x, y)` pairs in
row-major order — for each `y` from `0` to `height - 1`, each `x` from `0` to
`width - 1`. -/
def Board.indicesList (b : Board α) : List (Nat × Nat) :=
  (List.range b.height).flatMap fun y => (List.range b.width).map fun x => (x, y)

/-- A board is well formed when its flat array has exactly `width * height` slots. -/
def Board.Wf (b : Board α) : Prop :=
  b.fields.length = b.width * b.height

/-- `torus_sub_1` from `src/board.rs`: wrap-around decrement.  `none` embeds the
failing `assert!(idx == idx_end + 1)` panic on the middle branch. -/
def torus_sub_1 (idx idx_end : Nat) : Option Nat :=
  if idx = 0 then
    some (idx_end - 1)
  else if idx_end < idx then
    if idx = idx_end + 1 then some 0 else none
  else
    some (idx - 1)

/-- The `TorusNeighbors` iterator state from `src/board.rs`. -/
structure TorusNeighbors where
  x : Nat
  y : Nat
  idx : Nat
  x_end : Nat
  y_end : Nat

/-- One `TorusNeighbors::next` step: either the iterator is exhausted, panics
(`none` from `torus_sub_1`), or yields a coordinate and the successor state. -/
inductive TorusStep where
  | done : TorusStep
  | panic : TorusStep
  | yield (c : Nat × Nat) (s : TorusNeighbors) : TorusStep

/-- `TorusNeighbors::next` from `src/board.rs`: while `idx < 9`, yield the wrapped
coordinate for local offset `(idx % 3, idx / 3)`, incrementing `idx` and skipping
`idx = 4` (the center). -/
def torusStep (s : TorusNeighbors) : TorusStep :=
  if s.idx = 9 then
    .done
  else
    match torus_sub_1 (s.x + s.idx % 3) s.x_end, torus_sub_1 (s.y + s.idx / 3) s.y_end with
    | some nx, some ny =>
      let idx1 := s.idx + 1
      let idx2 := if idx1 = 4 then idx1 + 1 else idx1
      .yield (nx, ny) ⟨s.x, s.y, idx2, s.x_end, s.y_end⟩
    | _, _ => .panic

/-- Drain the `TorusNeighbors` iterator, collecting yielded coordinates; `none`
embeds a panic (fuel 10 is enough for the 8 yields plus the final `None`). -/
def torusRun : Nat → TorusNeighbors → Option (List (Nat × Nat))
  | 0, _ => none
  | fuel + 1, s =>
    match torusStep s with
    | .done => some []
    | .panic => none
    | .yield c s' => (torusRun fuel s').map (c :: ·)

/-- `torus_neighbors` from `src/board.rs`: the full 8-neighbor enumeration of
`(x, y)` on a torus of extents `x_end × y_end`. -/
def torus_neighbors (x y x_end y_end : Nat) : Option (List (Nat × Nat)) :=
  torusRun 10 ⟨x, y, 0, x_end, y_end⟩

/-- `GoodEvilConfig` from `src/simulation.rs`. -/
structure GoodEvilConfig where
  num_specimens : Nat
  initial_specimen_energy : ℚ
  energy_loss_per_step : ℚ
  deadly_energy_margin : ℚ

/-- The `GoodEvil` engine state from `src/simulation.rs`. -/
structure GoodEvil where
  cfg : GoodEvilConfig
  rng : Rng
  collision_energy : ℚ
  board : Board Field
  iteration : Nat

/-- Fatal (process-terminating) failures of the engine.  `fuelExhausted` is an
artifact of embedding the unbounded `while` loop with fuel; it is not a code path. -/
inductive Fatal where
  | indexOutOfBounds : Fatal
  | unexpectedCollision : Fatal
  | assertFailed : Fatal
  | nonMonotonic : Fatal
  | extinct : Fatal
  | fuelExhausted : Fatal
deriving DecidableEq, Repr

/-- `GoodEvil::get_new_coords` from `src/simulation.rs`: draw a destination from
the clamped, non-wrapping 3×3 neighborhood of `(x, y)` (`max(0, x-1)` is `x - 1`
in `Nat`).  The x coordinate is drawn first, then the y coordinate. -/
def get_new_coords (x y : Nat) (board : Board Field) (rng : Rng) :
    (Nat × Nat) × Rng :=
  let min_x := x - 1
  let max_x := min (x + 2) board.width
  let min_y := y - 1
  let max_y := min (y + 2) board.height
  let (tx, rng1) := rng.genRange min_x max_x
  let (ty, rng2) := rng1.genRange min_y max_y
  ((tx, ty), rng2)

/-- The cell transformation applied by `GoodEvil::move_specimen` to the
destination cell. -/
def mergeField (f : Field) (specimen : Specimen) : Field :=
  match f with
  | .Empty => .Occupied specimen
  | .Occupied tgt_specimen => .Collision [tgt_specimen, specimen]
  | .Collision specimens => .Collision (specimens ++ [specimen])

/-- `GoodEvil::move_specimen` from `src/simulation.rs`: read the destination cell
through `at_mut` (panic — `none` — when the flat index is out of range) and store
the merged cell back. -/
def move_specimen (specimen : Specimen) (dst_x dst_y : Nat) (new : Board Field) :
    Option (Board Field) :=
  (new.at dst_x dst_y).map fun f => new.setCell dst_x dst_y (mergeField f specimen)

/-- The mutable state threaded through the movement phase: the engine's
`collision_energy` accumulator and rng, and the new board under construction. -/
structure MoveState where
  collision_energy : ℚ
  rng : Rng
  new : Board Field

/-- `GoodEvil::update_specimen` from `src/simulation.rs`: process old cell `(x, y)`.
An `Occupied` specimen always feeds `energy_loss_per_step` into the pool; it dies
(remaining energy also pooled, nothing placed) when its reduced energy falls below
`deadly_energy_margin`, and otherwise moves to a freshly drawn destination.
A `Collision` cell in the old grid is a `panic!("should never happen")`. -/
def update_specimen (cfg : GoodEvilConfig) (old : Board Field) (x y : Nat)
    (st : MoveState) : Except Fatal MoveState :=
  match old.at x y with
  | none => .error .indexOutOfBounds
  | some .Empty => .ok st
  | some (.Occupied specimen) =>
    let ce := st.collision_energy + cfg.energy_loss_per_step
    let new_specimen : Specimen := ⟨specimen.energy - cfg.energy_loss_per_step⟩
    if new_specimen.energy < cfg.deadly_energy_margin then
      .ok ⟨ce + new_specimen.energy, st.rng, st.new⟩
    else
      let ((target_x, target_y), rng') := get_new_coords x y st.new st.rng
      match move_specimen new_specimen target_x target_y st.new with
      | none => .error .indexOutOfBounds
      | some b => .ok ⟨ce, rng', b⟩
  | some (.Collision _) => .error .unexpectedCollision

/-- The movement-phase loop of `GoodEvil::advance`: fold `update_specimen` over
the old grid's row-major indices. -/
def movementFold (cfg : GoodEvilConfig) (old : Board Field) :
    List (Nat × Nat) → MoveState → Except Fatal MoveState
  | [], st => .ok st
  | c :: cs, st =>
    match update_specimen cfg old c.1 c.2 st with
    | .error e => .error e
    | .ok st' => movementFold cfg old cs st'

/-- `GoodEvil::surrounding_fields` from `src/simulation.rs`: the clamped 3×3
neighborhood of `(x, y)`, enumerated with the outer loop over x and the inner
loop over y. -/
def surrounding_fields (x y : Nat) (board : Board Field) : List (Nat × Nat) :=
  let min_x := x - 1
  let max_x := min (x + 2) board.width
  let min_y := y - 1
  let max_y := min (y + 2) board.height
  (List.range' min_x (max_x - min_x)).flatMap fun xx =>
    (List.range' min_y (max_y - min_y)).map fun yy => (xx, yy)

/-- `GoodEvil::assign_neighbors` from `src/simulation.rs`: shuffle the clamped
neighborhood and keep the first `num_elems` coordinates.  The failing
`assert!(num_elems <= fields.len())` is the `.assertFailed` fatal error; given the
assert, `Vec::resize` only truncates, which `List.take` embeds. -/
def assign_neighbors (x y : Nat) (num_elems : Nat) (board : Board Field)
    (rng : Rng) : Except Fatal (List (Nat × Nat) × Rng) :=
  let fields := surrounding_fields x y board
  if num_elems ≤ fields.length then
    let (shuffled, rng') := shuffle rng fields
    .ok (shuffled.take num_elems, rng')
  else
    .error .assertFailed

/-- The ascending-by-energy stable sort used by the energy-split strategies
(`sort_by(partial_cmp)` in `src/simulation.rs`). -/
def sortSpecimens (specimens : List Specimen) : List Specimen :=
  List.insertionSort (fun a b => a.energy ≤ b.energy) specimens

/-- `GoodEvil::split_energy_weak_takes_all` from `src/simulation.rs`: sort
ascending by energy, add the whole `available_energy` to the first (weakest)
element. -/
def split_energy_weak_takes_all (specimens : List Specimen)
    (available_energy : ℚ) : List Specimen :=
  match sortSpecimens specimens with
  | [] => []
  | first :: rest => ⟨first.energy + available_energy⟩ :: rest

/-- `GoodEvil::split_energy` from `src/simulation.rs`: the dispatcher, fixed to
the weak-takes-all strategy. -/
def split_energy (specimens : List Specimen) (available_energy : ℚ) :
    List Specimen :=
  split_energy_weak_takes_all specimens available_energy

instance : IsTotal Specimen (fun a b => a.energy ≤ b.energy) :=
  ⟨fun a b => le_total a.energy b.energy⟩

instance : IsTrans Specimen (fun a b => a.energy ≤ b.energy) :=
  ⟨fun _ _ _ hab hbc => le_trans hab hbc⟩

/-- `GoodEvil::count_collisions` from `src/simulation.rs`: total specimens held
across `Collision` cells. -/
def count_collisions (board : Board Field) : Nat :=
  board.fields.foldl
    (fun sum f =>
      match f with
      | .Collision specimens => sum + specimens.length
      | _ => sum)
    0

/-- `GoodEvil::count_specimens` from `src/simulation.rs`. -/
def count_specimens (board : Board Field) : Nat :=
  board.fields.foldl
    (fun sum f =>
      match f with
      | .Empty => sum
      | .Occupied _ => sum + 1
      | .Collision specimens => sum + specimens.length)
    0

/-- `GoodEvil::has_collisions` from `src/simulation.rs`. -/
def has_collisions (board : Board Field) : Bool :=
  board.fields.any fun f =>
    match f with
    | .Collision _ => true
    | _ => false

/-- `GoodEvil::total_energy` from `src/simulation.rs`. -/
def total_energy (board : Board Field) : ℚ :=
  board.fields.foldl
    (fun sum f =>
      match f with
      | .Empty => sum
      | .Occupied s => sum + s.energy
      | .Collision ss => sum + ss.foldl (fun sum s => sum + s.energy) 0)
    0

/-- The placement loop inside a `Collision` arm of `resolve_collisions`: place
each `(position, specimen)` pair with `move_specimen`. -/
def placeAll : List ((Nat × Nat) × Specimen) → Board Field →
    Except Fatal (Board Field)
  | [], b => .ok b
  | p :: ps, b =>
    match move_specimen p.2 p.1.1 p.1.2 b with
    | none => .error .indexOutOfBounds
    | some b' => placeAll ps b'

/-- The body of the `resolve_collisions` scan for one old-grid coordinate. -/
def resolveCell (energy_gain : ℚ) (old : Board Field) (c : Nat × Nat)
    (acc : Board Field × Rng) : Except Fatal (Board Field × Rng) :=
  match old.at c.1 c.2 with
  | none => .error .indexOutOfBounds
  | some .Empty => .ok acc
  | some (.Occupied specimen) =>
    match move_specimen specimen c.1 c.2 acc.1 with
    | none => .error .indexOutOfBounds
    | some b => .ok (b, acc.2)
  | some (.Collision specimens) =>
    let new_specs := split_energy specimens (specimens.length * energy_gain)
    match assign_neighbors c.1 c.2 new_specs.length acc.1 acc.2 with
    | .error e => .error e
    | .ok (positions, rng') =>
      match placeAll (positions.zip new_specs) acc.1 with
      | .error e => .error e
      | .ok b => .ok (b, rng')

/-- The row-major scan of `resolve_collisions`. -/
def resolveFold (energy_gain : ℚ) (old : Board Field) :
    List (Nat × Nat) → Board Field × Rng → Except Fatal (Board Field × Rng)
  | [], acc => .ok acc
  | c :: cs, acc =>
    match resolveCell energy_gain old c acc with
    | .error e => .error e
    | .ok acc' => resolveFold energy_gain old cs acc'

/-- `GoodEvil::resolve_collisions` from `src/simulation.rs`: one resolution pass.
`energy_gain` is `energy_accumulator / count_collisions old` (exact rational
division; every call site has a strictly positive collision count). -/
def resolve_collisions (energy_accumulator : ℚ) (rng : Rng)
    (old : Board Field) : Except Fatal (Board Field × Rng) :=
  let new0 : Board Field := Board.new old.width old.height .Empty
  let energy_gain : ℚ := energy_accumulator / (count_collisions old : ℚ)
  resolveFold energy_gain old old.indicesList (new0, rng)

/-- The `while has_collisions` loop of `GoodEvil::advance`, with fuel for the
unbounded iteration.  Each iteration first re-checks the specimen count against
the post-movement baseline (`assert!` — `.nonMonotonic` on failure), then runs
one resolution pass and zeroes `collision_energy`. -/
def advanceLoop (fuel : Nat) (collision_energy : ℚ) (rng : Rng)
    (board : Board Field) (specimens : Nat) :
    Except Fatal (ℚ × Rng × Board Field) :=
  if has_collisions board then
    match fuel with
    | 0 => .error .fuelExhausted
    | fuel' + 1 =>
      if count_specimens board < specimens then
        .error .nonMonotonic
      else
        match resolve_collisions collision_energy rng board with
        | .error e => .error e
        | .ok (board', rng') => advanceLoop fuel' 0 rng' board' specimens
  else
    .ok (collision_energy, rng, board)

/-- `GoodEvil::advance` from `src/simulation.rs`: the movement phase over the old
grid, the collision-resolution loop against the post-movement baseline count, the
extinction check, and the generation-counter increment. -/
def advance (fuel : Nat) (g : GoodEvil) : Except Fatal GoodEvil :=
  match movementFold g.cfg g.board g.board.indicesList
      ⟨g.collision_energy, g.rng, Board.new g.board.width g.board.height .Empty⟩ with
  | .error e => .error e
  | .ok st =>
    let specimens := count_specimens st.new
    match advanceLoop fuel st.collision_energy st.rng st.new specimens with
    | .error e => .error e
    | .ok (ce, rng', board') =>
      if specimens = 0 then
        .error .extinct
      else
        .ok ⟨g.cfg, rng', ce, board', g.iteration + 1⟩

/-- The specimen count contributed by one cell (Empty = 0, Occupied = 1,
Collision = list length). -/
def fieldCount : Field → Nat
  | .Empty => 0
  | .Occupied _ => 1
  | .Collision ss => ss.length

/-- The contested-specimen count contributed by one cell (only Collision cells). -/
def collCount : Field → Nat
  | .Collision ss => ss.length
  | _ => 0

/-- The energy contributed by one cell. -/
def fieldEnergy : Field → ℚ
  | .Empty => 0
  | .Occupied s => s.energy
  | .Collision ss => (ss.map Specimen.energy).sum

/-- Specimen count of a board as a sum over cells. -/
def countSum (b : Board Field) : Nat := (b.fields.map fieldCount).sum

/-- Contested-specimen count of a board as a sum over cells. -/
def collSum (b : Board Field) : Nat := (b.fields.map collCount).sum

/-- Total energy of a board as a sum over cells. -/
def energySum (b : Board Field) : ℚ := (b.fields.map fieldEnergy).sum

/-- Boards produced by the engine never hold an empty `Collision` contestant list
(the merge rule creates collision lists of length two and only appends). -/
def NoEmptyColl (b : Board Field) : Prop :=
  ∀ ss : List Specimen, Field.Collision ss ∈ b.fields → ss ≠ []

/-- Per-coordinate specimen count read through `Board.at` (0 off the array). -/
def countAt (old : Board Field) (c : Nat × Nat) : Nat :=
  match old.at c.1 c.2 with
  | some f => fieldCount f
  | none => 0

/-- Per-coordinate energy read through `Board.at` (0 off the array). -/
def energyAt (old : Board Field) (c : Nat × Nat) : ℚ :=
  match old.at c.1 c.2 with
  | some f => fieldEnergy f
  | none => 0

/-- Per-coordinate contested-specimen count read through `Board.at`. -/
def collAt (old : Board Field) (c : Nat × Nat) : Nat :=
  match old.at c.1 c.2 with
  | some f => collCount f
  | none => 0

/-- The row-major coordinate enumeration of a `width × height` extent. -/
def indicesOf (width height : Nat) : List (Nat × Nat) :=
  (List.range height).flatMap fun y => (List.range width).map fun x => (x, y)

/-- Membership in the clamped, non-wrapping 3×3 neighborhood of `(x, y)` on a
`width × height` grid (the cell itself included, bounded by the grid edges). -/
def InClampedNbhd (x y width height : Nat) (c : Nat × Nat) : Prop :=
  x - 1 ≤ c.1 ∧ c.1 < min (x + 2) width ∧ y - 1 ≤ c.2 ∧ c.2 < min (y + 2) height

/-- Wrapped torus coordinate for local offset `i ∈ {0, 1, 2}` relative to `a`:
`(a + i - 1) mod n`, written without truncated subtraction. -/
def wrapCoord (a i n : Nat) : Nat := (a + i + (n - 1)) % n

/-- The expected output of `torus_neighbors x y N N`: the 8 wrapped coordinates
of the 3×3 block around `(x, y)` in raster order over local offsets, skipping
the center offset `(1, 1)`. -/
def torusExpected (x y N : Nat) : List (Nat × Nat) :=
  [(wrapCoord x 0 N, wrapCoord y 0 N), (wrapCoord x 1 N, wrapCoord y 0 N),
   (wrapCoord x 2 N, wrapCoord y 0 N),
   (wrapCoord x 0 N, wrapCoord y 1 N), (wrapCoord x 2 N, wrapCoord y 1 N),
   (wrapCoord x 0 N, wrapCoord y 2 N), (wrapCoord x 1 N, wrapCoord y 2 N),
   (wrapCoord x 2 N, wrapCoord y 2 N)]

/-- An all-zeros random stream, used to run the engine on concrete inputs. -/
def rng0 : Rng := ⟨fun _ => 0, 0⟩

/-- A concrete engine state: a 2×2 board holding one specimen of energy 10 at
`(0, 0)`, with `energy_loss_per_step = 1`, `deadly_energy_margin = 0` and an
empty collision-energy pool. -/
def c1_engine : GoodEvil :=
  ⟨⟨1, 10, 1, 0⟩, rng0, 0,
   ⟨[Field.Occupied ⟨10⟩, Field.Empty, Field.Empty, Field.Empty], 2, 2⟩, 0⟩

/-- The state `advance 10 c1_engine` produces: the specimen lost energy 1 (now 9,
moved in place under the all-zeros stream), the pool holds that 1. -/
def c1_result : GoodEvil :=
  ⟨⟨1, 10, 1, 0⟩, ⟨fun _ => 0, 2⟩, 1,
   ⟨[Field.Occupied ⟨9⟩, Field.Empty, Field.Empty, Field.Empty], 2, 2⟩, 1⟩

/-- A concrete 2×2 board of naturals with distinct cell values. -/
def c3_board : Board Nat := ⟨[10, 11, 12, 13], 2, 2⟩

/-- A concrete 2×2 board whose cell `(0, 0)` holds a two-specimen collision. -/
def c10_old : Board Field :=
  ⟨[Field.Collision [⟨1⟩, ⟨2⟩], Field.Empty, Field.Empty, Field.Empty], 2, 2⟩

/-- The board one resolution pass (pool = 4, all-zeros stream) makes of
`c10_old`: the weak contestant took the whole pool (1 + 4 = 5). -/
def c10_new : Board Field :=
  ⟨[Field.Occupied ⟨5⟩, Field.Empty, Field.Occupied ⟨2⟩, Field.Empty], 2, 2⟩

/-- A concrete engine whose sole specimen (energy 1/2) dies in the next
generation (loss 1, margin 0), leaving the board extinct. -/
def c8_engine : GoodEvil :=
  ⟨⟨1, 1/2, 1, 0⟩, rng0, 0,
   ⟨[Field.Occupied ⟨1/2⟩, Field.Empty, Field.Empty, Field.Empty], 2, 2⟩, 0⟩

/-- The movement-phase outcome for `c8_engine`: the dead specimen's energy was
folded into the pool and the new board is empty. -/
def c8_st : MoveState := ⟨1/2, rng0, Board.new 2 2 .Empty⟩

/-! ### Fold-to-sum conversions -/

theorem foldl_add_sum {α M : Type} [AddCommMonoid M] (g : α → M) :
    ∀ (l : List α) (init : M),
      l.foldl (fun s a => s + g a) init = init + (l.map g).sum := by
  intro l
  induction l with
  | nil => intro init; simp
  | cons a t ih => intro init; simp [List.foldl_cons, ih, add_assoc]

theorem count_specimens_eq (b : Board Field) : count_specimens b = countSum b := by
  have h : ∀ (l : List Field) (n : Nat),
      (l.foldl (fun sum f =>
        match f with
        | .Empty => sum
        | .Occupied _ => sum + 1
        | .Collision specimens => sum + specimens.length) n)
        = n + (l.map fieldCount).sum := by
    intro l
    induction l with
    | nil => intro n; simp
    | cons f t ih =>
      intro n
      cases f <;> simp [List.foldl_cons, ih, fieldCount] <;> omega
  simpa [count_specimens, countSum] using h b.fields 0

theorem count_collisions_eq (b : Board Field) : count_collisions b = collSum b := by
  have h : ∀ (l : List Field) (n : Nat),
      (l.foldl (fun sum f =>
        match f with
        | .Collision specimens => sum + specimens.length
        | _ => sum)
        n) = n + (l.map collCount).sum := by
    intro l
    induction l with
    | nil => intro n; simp
    | cons f t ih =>
      intro n
      cases f <;> simp [List.foldl_cons, ih, collCount] <;> omega
  simpa [count_collisions, collSum] using h b.fields 0

theorem total_energy_eq (b : Board Field) : total_energy b = energySum b := by
  have h : ∀ (l : List Field) (q : ℚ),
      (l.foldl (fun sum f =>
        match f with
        | .Empty => sum
        | .Occupied s => sum + s.energy
        | .Collision ss => sum + ss.foldl (fun sum s => sum + s.energy) 0)
        q) = q + (l.map fieldEnergy).sum := by
    intro l
    induction l with
    | nil => intro q; simp
    | cons f t ih =>
      intro q
      cases f with
      | Empty => simp [List.foldl_cons, ih, fieldEnergy]
      | Occupied s => simp [List.foldl_cons, ih, fieldEnergy, add_assoc]
      | Collision ss =>
        rw [List.foldl_cons, ih]
        have hinner : ss.foldl (fun sum s => sum + s.energy) 0
            = (ss.map Specimen.energy).sum := by
          simpa using foldl_add_sum Specimen.energy ss 0
        simp [fieldEnergy, hinner, add_assoc]
  simpa [total_energy, energySum] using h b.fields 0

theorem has_collisions_iff (b : Board Field) :
    has_collisions b = true ↔ ∃ ss, Field.Collision ss ∈ b.fields := by
  constructor
  · intro h
    rcases List.any_eq_true.mp h with ⟨f, hf, hp⟩
    cases f with
    | Empty => simp at hp
    | Occupied _ => simp at hp
    | Collision ss => exact ⟨ss, hf⟩
  · rintro ⟨ss, hss⟩
    exact List.any_eq_true.mpr ⟨Field.Collision ss, hss, rfl⟩

/-! ### Flat row-major addressing -/

theorem flat_lt {x y w h : Nat} (hx : x < w) (hy : y < h) : y * w + x < w * h := by
  have h2 : (y + 1) * w ≤ h * w := Nat.mul_le_mul_right w hy
  have h1 : (y + 1) * w = y * w + w := by ring
  have h3 : h * w = w * h := by ring
  omega

theorem flat_inj {x1 y1 x2 y2 w : Nat} (hx1 : x1 < w) (hx2 : x2 < w)
    (h : y1 * w + x1 = y2 * w + x2) : x1 = x2 ∧ y1 = y2 := by
  have hm : ∀ x y : Nat, x < w → (y * w + x) % w = x := by
    intro x y hxw
    rw [Nat.add_comm, Nat.add_mul_mod_self_right, Nat.mod_eq_of_lt hxw]
  have hcd : (y1 * w + x1) % w = (y2 * w + x2) % w := by rw [h]
  have hx : x1 = x2 := by
    have h1 := hm x1 y1 hx1
    have h2 := hm x2 y2 hx2
    omega
  refine ⟨hx, ?_⟩
  have hmul : y1 * w = y2 * w := by omega
  exact Nat.eq_of_mul_eq_mul_right (by omega) hmul

theorem Board.at_eq_some {α : Type} {b : Board α} {x y : Nat}
    (hlt : y * b.width + x < b.fields.length) :
    b.at x y = some (b.fields.get ⟨y * b.width + x, hlt⟩) :=
  List.get?_eq_get hlt

theorem Board.length_setCell {α : Type} (b : Board α) (x y : Nat) (v : α) :
    (b.setCell x y v).fields.length = b.fields.length := by
  simp [Board.setCell]

theorem Board.width_setCell {α : Type} (b : Board α) (x y : Nat) (v : α) :
    (b.setCell x y v).width = b.width := rfl

theorem Board.height_setCell {α : Type} (b : Board α) (x y : Nat) (v : α) :
    (b.setCell x y v).height = b.height := rfl

theorem Board.at_setCell_self {α : Type} (b : Board α) (x y : Nat) (v : α)
    (hlt : y * b.width + x < b.fields.length) :
    (b.setCell x y v).at x y = some v := by
  simp [Board.at, Board.setCell, List.getElem?_set_self hlt]

theorem Board.at_setCell_ne {α : Type} (b : Board α) (x y x' y' : Nat) (v : α)
    (hne : y * b.width + x ≠ y' * b.width + x') :
    (b.setCell x y v).at x' y' = b.at x' y' := by
  simp [Board.at, Board.setCell, List.getElem?_set_ne hne]

theorem sum_map_set {α M : Type} [AddCommMonoid M] (g : α → M) :
    ∀ (l : List α) (n : Nat) (v : α) (h : n < l.length),
      ((l.set n v).map g).sum + g (l.get ⟨n, h⟩) = (l.map g).sum + g v := by
  intro l
  induction l with
  | nil => intro n v h; simp at h
  | cons a t ih =>
    intro n v h
    cases n with
    | zero =>
      simp only [List.set, List.map_cons, List.sum_cons, List.get]
      abel
    | succ m =>
      have hm : m < t.length := by simpa using h
      have hih := ih m v hm
      simp only [List.set, List.map_cons, List.sum_cons, List.get]
      rw [add_assoc, hih, ← add_assoc]

/-! ### The merge rule and single placements -/

theorem fieldCount_mergeField (f : Field) (s : Specimen) :
    fieldCount (mergeField f s) = fieldCount f + 1 := by
  cases f <;> simp [mergeField, fieldCount]

theorem fieldEnergy_mergeField (f : Field) (s : Specimen) :
    fieldEnergy (mergeField f s) = fieldEnergy f + s.energy := by
  cases f <;> simp [mergeField, fieldEnergy]

theorem collCount_mergeField_le (f : Field) (s : Specimen) :
    collCount (mergeField f s) ≤ collCount f + 2 := by
  cases f <;> simp [mergeField, collCount]

theorem mergeField_ne_emptyColl (f : Field) (s : Specimen) :
    ∀ ss, mergeField f s = .Collision ss → ss ≠ [] := by
  cases f <;> simp [mergeField]

theorem noEmptyColl_setCell {b : Board Field} {x y : Nat} {v : Field}
    (hb : NoEmptyColl b) (hv : ∀ ss, v = Field.Collision ss → ss ≠ []) :
    NoEmptyColl (b.setCell x y v) := by
  intro ss hm
  rcases List.mem_or_eq_of_mem_set hm with h | h
  · exact hb ss h
  · exact hv ss h.symm

theorem noEmptyColl_new (w h : Nat) : NoEmptyColl (Board.new w h .Empty) := by
  intro ss hm
  have := List.eq_of_mem_replicate hm
  simp at this

theorem move_specimen_eq {b : Board Field} (s : Specimen) (x y : Nat)
    (hlt : y * b.width + x < b.fields.length) :
    move_specimen s x y b
      = some (b.setCell x y (mergeField (b.fields.get ⟨y * b.width + x, hlt⟩) s)) := by
  simp [move_specimen, Board.at_eq_some hlt]

theorem move_specimen_props {b b' : Board Field} {s : Specimen} {x y : Nat}
    (hmov : move_specimen s x y b = some b') :
    b'.width = b.width ∧ b'.height = b.height ∧
    b'.fields.length = b.fields.length ∧
    countSum b' = countSum b + 1 ∧
    energySum b' = energySum b + s.energy ∧
    (NoEmptyColl b → NoEmptyColl b') := by
  rcases Option.map_eq_some'.mp hmov with ⟨f, hf, hb'⟩
  rcases List.get?_eq_some.mp hf with ⟨hlt, hget⟩
  subst hb'
  refine ⟨rfl, rfl, Board.length_setCell b x y _, ?_, ?_, ?_⟩
  · have hs := sum_map_set fieldCount b.fields (y * b.width + x) (mergeField f s) hlt
    rw [hget, fieldCount_mergeField] at hs
    have hred : countSum (b.setCell x y (mergeField f s))
        = ((b.fields.set (y * b.width + x) (mergeField f s)).map fieldCount).sum := rfl
    have hcs : countSum b = (b.fields.map fieldCount).sum := rfl
    rw [hred, hcs]
    omega
  · have hs := sum_map_set fieldEnergy b.fields (y * b.width + x) (mergeField f s) hlt
    rw [hget, fieldEnergy_mergeField] at hs
    have hred : energySum (b.setCell x y (mergeField f s))
        = ((b.fields.set (y * b.width + x) (mergeField f s)).map fieldEnergy).sum := rfl
    have hes : energySum b = (b.fields.map fieldEnergy).sum := rfl
    rw [hred, hes]
    linarith
  · intro hne
    exact noEmptyColl_setCell hne (mergeField_ne_emptyColl f s)

theorem move_specimen_some {b : Board Field} (s : Specimen) (x y : Nat)
    (hlt : y * b.width + x < b.fields.length) :
    ∃ b', move_specimen s x y b = some b' := by
  exact ⟨_, move_specimen_eq s x y hlt⟩

/-! ### The placement loop of a resolution pass -/

theorem placeAll_props :
    ∀ (ps : List ((Nat × Nat) × Specimen)) (b b' : Board Field),
      placeAll ps b = .ok b' →
      b.Wf → (∀ p ∈ ps, p.1.1 < b.width ∧ p.1.2 < b.height) →
      b'.width = b.width ∧ b'.height = b.height ∧ b'.Wf ∧
      countSum b' = countSum b + ps.length ∧
      energySum b' = energySum b + (ps.map (fun p => p.2.energy)).sum ∧
      (NoEmptyColl b → NoEmptyColl b') := by
  intro ps
  induction ps with
  | nil =>
    intro b b' hok hwf _
    simp only [placeAll] at hok
    cases hok
    exact ⟨rfl, rfl, hwf, by simp, by simp, fun h => h⟩
  | cons p ps ih =>
    intro b b' hok hwf hin
    have hp := hin p (List.mem_cons_self p ps)
    have hlt : p.1.2 * b.width + p.1.1 < b.fields.length := by
      rw [hwf]; exact flat_lt hp.1 hp.2
    rcases move_specimen_some p.2 p.1.1 p.1.2 hlt with ⟨b1, hb1⟩
    simp only [placeAll, hb1] at hok
    rcases move_specimen_props hb1 with ⟨hw1, hh1, hl1, hc1, he1, hn1⟩
    have hwf1 : b1.Wf := by
      simp only [Board.Wf] at *
      rw [hl1, hw1, hh1, hwf]
    have hin1 : ∀ q ∈ ps, q.1.1 < b1.width ∧ q.1.2 < b1.height := by
      intro q hq
      rw [hw1, hh1]
      exact hin q (List.mem_cons_of_mem p hq)
    rcases ih b1 b' hok hwf1 hin1 with ⟨hw2, hh2, hwf2, hc2, he2, hn2⟩
    refine ⟨hw2.trans hw1, hh2.trans hh1, ?_, ?_, ?_, fun hne => hn2 (hn1 hne)⟩
    · simpa [Board.Wf, hw2.trans hw1, hh2.trans hh1] using hwf2
    · rw [hc2, hc1]
      simp
      omega
    · rw [he2, he1]
      simp [add_assoc]

/-! ### Neighborhood gathering, shuffling and assignment -/

theorem mem_surrounding_fields {x y : Nat} {b : Board Field} {c : Nat × Nat}
    (hc : c ∈ surrounding_fields x y b) :
    InClampedNbhd x y b.width b.height c := by
  simp only [surrounding_fields, List.mem_flatMap, List.mem_map] at hc
  rcases hc with ⟨xx, hxx, yy, hyy, hcc⟩
  rcases List.mem_range'.mp hxx with ⟨i, hi, hieq⟩
  rcases List.mem_range'.mp hyy with ⟨j, hj, hjeq⟩
  subst hcc
  refine ⟨by omega, by omega, by omega, by omega⟩

theorem inClampedNbhd_bounds {x y w h : Nat} {c : Nat × Nat}
    (hc : InClampedNbhd x y w h c) : c.1 < w ∧ c.2 < h := by
  rcases hc with ⟨_, h1, _, h2⟩
  omega

theorem surrounding_fields_mem {x y : Nat} {b : Board Field} {c : Nat × Nat}
    (hc : InClampedNbhd x y b.width b.height c) :
    c ∈ surrounding_fields x y b := by
  rcases hc with ⟨h1, h2, h3, h4⟩
  simp only [surrounding_fields, List.mem_flatMap, List.mem_map]
  refine ⟨c.1, List.mem_range'.mpr ⟨c.1 - (x - 1), by omega, by omega⟩,
    c.2, List.mem_range'.mpr ⟨c.2 - (y - 1), by omega, by omega⟩, rfl⟩

theorem perm_cons_erase_pair {a : Nat × Nat} :
    ∀ {l : List (Nat × Nat)}, a ∈ l → l.Perm (a :: l.erase a) := by
  intro l
  induction l with
  | nil => intro h; simp at h
  | cons b t ih =>
    intro h
    rw [List.erase_cons]
    by_cases hba : b = a
    · subst hba
      simp
    · have hbeq : (b == a) = false := by simp [hba]
      rw [hbeq]
      simp only [Bool.false_eq_true, if_false]
      have hat : a ∈ t := by
        rcases List.mem_cons.mp h with h1 | h1
        · exact absurd h1.symm hba
        · exact h1
      exact ((ih hat).cons b).trans (List.Perm.swap a b (t.erase a))

theorem shuffleGo_perm :
    ∀ (fuel : Nat) (rng : Rng) (l : List (Nat × Nat)),
      (shuffleGo fuel rng l).1.Perm l := by
  intro fuel
  induction fuel with
  | zero => intro rng l; simp [shuffleGo]
  | succ f ih =>
    intro rng l
    cases l with
    | nil => simp [shuffleGo]
    | cons a t =>
      simp only [shuffleGo]
      cases hk : (a :: t).get? ((Rng.genRange rng 0 (a :: t).length).1) with
      | none => simp
      | some p =>
        simp only []
        have hpm : p ∈ a :: t := by
          rcases List.get?_eq_some.mp hk with ⟨hlt, hget⟩
          rw [← hget]
          exact List.get_mem _ _ hlt
        have hperm := ih (Rng.genRange rng 0 (a :: t).length).2 ((a :: t).erase p)
        exact (hperm.cons p).trans (perm_cons_erase_pair hpm).symm

theorem shuffle_perm (rng : Rng) (l : List (Nat × Nat)) :
    (shuffle rng l).1.Perm l :=
  shuffleGo_perm l.length rng l

theorem assign_neighbors_ok {x y num_elems : Nat} {b : Board Field} {rng : Rng}
    {positions : List (Nat × Nat)} {rng' : Rng}
    (h : assign_neighbors x y num_elems b rng = .ok (positions, rng')) :
    positions.length = num_elems ∧
    ∀ c ∈ positions, InClampedNbhd x y b.width b.height c := by
  simp only [assign_neighbors] at h
  split at h
  case isTrue hle =>
    cases h
    constructor
    · rw [List.length_take]
      have := (shuffle_perm rng (surrounding_fields x y b)).length_eq
      omega
    · intro c hc
      have hmem : c ∈ (shuffle rng (surrounding_fields x y b)).1 :=
        List.mem_of_mem_take hc
      exact mem_surrounding_fields
        ((shuffle_perm rng (surrounding_fields x y b)).mem_iff.mp hmem)
  case isFalse => cases h

theorem assign_neighbors_err {x y num_elems : Nat} {b : Board Field} {rng : Rng}
    (h : (surrounding_fields x y b).length < num_elems) :
    assign_neighbors x y num_elems b rng = .error .assertFailed := by
  simp only [assign_neighbors]
  split
  case isTrue hle => omega
  case isFalse => rfl

/-! ### The energy-split strategy -/

theorem sortSpecimens_perm (ss : List Specimen) : (sortSpecimens ss).Perm ss :=
  List.perm_insertionSort _ ss

theorem sortSpecimens_sorted (ss : List Specimen) :
    (sortSpecimens ss).Sorted (fun a b => a.energy ≤ b.energy) :=
  List.sorted_insertionSort (fun a b => a.energy ≤ b.energy) ss

theorem split_energy_length (ss : List Specimen) (e : ℚ) :
    (split_energy ss e).length = ss.length := by
  have hp := (sortSpecimens_perm ss).length_eq
  simp only [split_energy, split_energy_weak_takes_all]
  cases hsort : sortSpecimens ss with
  | nil => rw [hsort] at hp; simpa using hp
  | cons first rest => rw [hsort] at hp; simpa using hp

theorem split_energy_sum (ss : List Specimen) (e : ℚ) (hne : ss ≠ []) :
    ((split_energy ss e).map Specimen.energy).sum
      = (ss.map Specimen.energy).sum + e := by
  have hp : ((sortSpecimens ss).map Specimen.energy).sum
      = (ss.map Specimen.energy).sum :=
    ((sortSpecimens_perm ss).map Specimen.energy).sum_eq
  simp only [split_energy, split_energy_weak_takes_all]
  cases hsort : sortSpecimens ss with
  | nil =>
    exfalso
    have hp0 : ss.Perm ([] : List Specimen) := by
      rw [← hsort]
      exact (sortSpecimens_perm ss).symm
    exact hne hp0.eq_nil
  | cons first rest =>
    rw [hsort] at hp
    simp only [List.map_cons, List.sum_cons] at hp ⊢
    linarith

/-! ### Summing a per-cell quantity over the row-major index enumeration -/

theorem sum_map_add_distrib {α M : Type} [AddCommMonoid M] (f g : α → M)
    (l : List α) :
    (l.map (fun a => f a + g a)).sum = (l.map f).sum + (l.map g).sum := by
  induction l with
  | nil => simp
  | cons a t ih =>
    simp only [List.map_cons, List.sum_cons, ih]
    abel

theorem indicesOf_map_flat (w : Nat) :
    ∀ h : Nat, (indicesOf w h).map (fun c => c.2 * w + c.1) = List.range (h * w) := by
  intro h
  induction h with
  | zero => simp [indicesOf]
  | succ n ih =>
    have hrange : List.range (n + 1) = List.range n ++ [n] := List.range_succ n
    have hsplit : indicesOf w (n + 1)
        = indicesOf w n ++ (List.range w).map (fun x => (x, n)) := by
      simp [indicesOf, hrange]
    rw [hsplit, List.map_append, ih, List.map_map]
    have hcomp : ((fun c : Nat × Nat => c.2 * w + c.1) ∘ fun x => (x, n))
        = fun x => n * w + x := rfl
    rw [hcomp]
    have hmul : (n + 1) * w = n * w + w := by ring
    rw [hmul, List.range_add]

theorem sum_range_get? {α M : Type} [AddCommMonoid M] (G : Option α → M) :
    ∀ l : List α,
      ((List.range l.length).map (fun i => G (l.get? i))).sum
        = (l.map (fun a => G (some a))).sum := by
  intro l
  induction l with
  | nil => simp
  | cons a t ih =>
    rw [List.length_cons, List.range_succ_eq_map]
    simp only [List.map_cons, List.sum_cons, List.map_map]
    have hcomp : ((fun i => G ((a :: t).get? i)) ∘ Nat.succ)
        = fun i => G (t.get? i) := rfl
    rw [hcomp, ih]
    rfl

theorem sum_indices_at {M : Type} [AddCommMonoid M] (F : Field → M)
    (b : Board Field) (hwf : b.Wf) :
    ((b.indicesList).map (fun c =>
        match b.at c.1 c.2 with
        | some f => F f
        | none => 0)).sum
      = (b.fields.map F).sum := by
  have hfun : (fun c : Nat × Nat =>
      match b.at c.1 c.2 with
      | some f => F f
      | none => 0)
      = (fun i =>
          match b.fields.get? i with
          | some f => F f
          | none => 0) ∘ (fun c : Nat × Nat => c.2 * b.width + c.1) := rfl
  rw [hfun, ← List.map_map]
  have hidx : (b.indicesList).map (fun c : Nat × Nat => c.2 * b.width + c.1)
      = List.range (b.height * b.width) := indicesOf_map_flat b.width b.height
  rw [hidx]
  have hlen : b.height * b.width = b.fields.length := by
    rw [hwf]; ring
  rw [hlen]
  have := sum_range_get? (fun o : Option Field =>
    match o with
    | some f => F f
    | none => 0) b.fields
  exact this

theorem sum_indices_countAt (b : Board Field) (hwf : b.Wf) :
    ((b.indicesList).map (countAt b)).sum = countSum b :=
  sum_indices_at fieldCount b hwf

theorem sum_indices_energyAt (b : Board Field) (hwf : b.Wf) :
    ((b.indicesList).map (energyAt b)).sum = energySum b :=
  sum_indices_at fieldEnergy b hwf

theorem sum_indices_collAt (b : Board Field) (hwf : b.Wf) :
    (((b.indicesList).map (collAt b)).sum : ℚ) = (collSum b : ℚ) := by
  have := sum_indices_at collCount b hwf
  have h2 : ((b.indicesList).map (collAt b)).sum = collSum b := this
  exact_mod_cast congrArg (Nat.cast : Nat → ℚ) h2

theorem mem_indicesList {b : Board α} {c : Nat × Nat}
    (hc : c ∈ b.indicesList) : c.1 < b.width ∧ c.2 < b.height := by
  simp only [Board.indicesList, List.mem_flatMap, List.mem_map] at hc
  rcases hc with ⟨y, hy, x, hx, hcc⟩
  subst hcc
  exact ⟨List.mem_range.mp hx, List.mem_range.mp hy⟩

/-! ### One cell of a resolution pass -/

theorem countSum_new (w h : Nat) : countSum (Board.new w h .Empty) = 0 := by
  simp [countSum, Board.new, fieldCount]

theorem energySum_new (w h : Nat) : energySum (Board.new w h .Empty) = 0 := by
  simp [energySum, Board.new, fieldEnergy]

theorem wf_new {α : Type} (w h : Nat) (v : α) : (Board.new w h v).Wf := by
  simp [Board.new, Board.Wf]

theorem resolveCell_props {gain : ℚ} {old : Board Field} {c : Nat × Nat}
    {acc acc' : Board Field × Rng}
    (hok : resolveCell gain old c acc = .ok acc')
    (hwf : acc.1.Wf) (hw : acc.1.width = old.width)
    (hh : acc.1.height = old.height)
    (hc1 : c.1 < old.width) (hc2 : c.2 < old.height) :
    acc'.1.Wf ∧ acc'.1.width = old.width ∧ acc'.1.height = old.height ∧
    countSum acc'.1 = countSum acc.1 + countAt old c ∧
    energySum acc'.1 = energySum acc.1 + energyAt old c
      + (collAt old c : ℚ) * gain ∧
    (NoEmptyColl acc.1 → NoEmptyColl acc'.1) := by
  cases hat : old.at c.1 c.2 with
  | none => simp [resolveCell, hat] at hok
  | some f =>
    cases f with
    | Empty =>
      simp only [resolveCell, hat] at hok
      cases hok
      refine ⟨hwf, hw, hh, ?_, ?_, fun h => h⟩ <;>
        simp [countAt, energyAt, collAt, hat, fieldCount, fieldEnergy, collCount]
    | Occupied s =>
      have hlt : c.2 * acc.1.width + c.1 < acc.1.fields.length := by
        rw [hwf, hw, hh]
        exact flat_lt (hw ▸ hc1 : c.1 < old.width) hc2
      rcases move_specimen_some s c.1 c.2 hlt with ⟨b1, hb1⟩
      simp only [resolveCell, hat, hb1] at hok
      cases hok
      rcases move_specimen_props hb1 with ⟨hw1, hh1, hl1, hc1', he1, hn1⟩
      refine ⟨?_, hw1.trans hw, hh1.trans hh, ?_, ?_, hn1⟩
      · simp only [Board.Wf] at *
        rw [hl1, hw1, hh1, hwf]
      · simp [hc1', countAt, hat, fieldCount]
      · simp [he1, energyAt, collAt, hat, fieldEnergy, collCount]
    | Collision ss =>
      cases hassign : assign_neighbors c.1 c.2
          (split_energy ss (ss.length * gain)).length acc.1 acc.2 with
      | error e => simp [resolveCell, hat, hassign] at hok
      | ok pr =>
        rcases pr with ⟨positions, rng'⟩
        rcases assign_neighbors_ok hassign with ⟨hplen, hpmem⟩
        cases hplace : placeAll (positions.zip (split_energy ss (ss.length * gain))) acc.1 with
        | error e => simp [resolveCell, hat, hassign, hplace] at hok
        | ok b1 =>
          simp only [resolveCell, hat, hassign, hplace] at hok
          cases hok
          have hin : ∀ p ∈ positions.zip (split_energy ss (ss.length * gain)),
              p.1.1 < acc.1.width ∧ p.1.2 < acc.1.height := by
            intro p hp
            have hp1 : p.1 ∈ positions := by
              rcases p with ⟨pc, psp⟩
              exact (List.of_mem_zip hp).1
            have := inClampedNbhd_bounds (hpmem p.1 hp1)
            exact this
          rcases placeAll_props _ acc.1 b1 hplace hwf hin with
            ⟨hw1, hh1, hwf1, hc1', he1, hn1⟩
          have hziplen : (positions.zip (split_energy ss (ss.length * gain))).length
              = ss.length := by
            rw [List.length_zip, hplen, split_energy_length]
            omega
          refine ⟨hwf1, hw1.trans hw, hh1.trans hh, ?_, ?_, hn1⟩
          · rw [hc1', hziplen]
            simp [countAt, hat, fieldCount]
          · have hsnd : (positions.zip (split_energy ss (ss.length * gain))).map
                (fun p => p.2.energy)
                = (split_energy ss (ss.length * gain)).map Specimen.energy := by
              have hmsz := List.map_snd_zip positions
                (split_energy ss (ss.length * gain))
                (by rw [hplen, split_energy_length])
              calc (positions.zip (split_energy ss (ss.length * gain))).map
                    (fun p => p.2.energy)
                  = ((positions.zip (split_energy ss (ss.length * gain))).map
                      Prod.snd).map Specimen.energy := by
                    rw [List.map_map]; rfl
                _ = (split_energy ss (ss.length * gain)).map Specimen.energy := by
                    rw [hmsz]
            rw [he1, hsnd]
            by_cases hss : ss = []
            · subst hss
              simp [energyAt, collAt, hat, fieldEnergy, collCount, split_energy,
                split_energy_weak_takes_all, sortSpecimens]
            · rw [split_energy_sum ss _ hss]
              simp only [energyAt, collAt, hat, fieldEnergy, collCount]
              push_cast
              ring

/-! ### A full resolution pass -/

theorem resolveFold_props {gain : ℚ} {old : Board Field} :
    ∀ (cs : List (Nat × Nat)) (acc acc' : Board Field × Rng),
      resolveFold gain old cs acc = .ok acc' →
      (∀ c ∈ cs, c.1 < old.width ∧ c.2 < old.height) →
      acc.1.Wf → acc.1.width = old.width → acc.1.height = old.height →
      acc'.1.Wf ∧ acc'.1.width = old.width ∧ acc'.1.height = old.height ∧
      countSum acc'.1 = countSum acc.1 + (cs.map (countAt old)).sum ∧
      energySum acc'.1 = energySum acc.1 + (cs.map (energyAt old)).sum
        + ((cs.map (collAt old)).sum : ℚ) * gain ∧
      (NoEmptyColl acc.1 → NoEmptyColl acc'.1) := by
  intro cs
  induction cs with
  | nil =>
    intro acc acc' hok _ hwf hw hh
    simp only [resolveFold] at hok
    cases hok
    exact ⟨hwf, hw, hh, by simp, by simp, fun h => h⟩
  | cons c cs ih =>
    intro acc acc' hok hbound hwf hw hh
    cases hcell : resolveCell gain old c acc with
    | error e => simp [resolveFold, hcell] at hok
    | ok acc1 =>
      simp only [resolveFold, hcell] at hok
      have hc := hbound c (List.mem_cons_self c cs)
      rcases resolveCell_props hcell hwf hw hh hc.1 hc.2 with
        ⟨hwf1, hw1, hh1, hcnt1, hen1, hne1⟩
      rcases ih acc1 acc' hok
          (fun d hd => hbound d (List.mem_cons_of_mem c hd)) hwf1 hw1 hh1 with
        ⟨hwf2, hw2, hh2, hcnt2, hen2, hne2⟩
      refine ⟨hwf2, hw2, hh2, ?_, ?_, fun h => hne2 (hne1 h)⟩
      · rw [hcnt2, hcnt1]
        simp [List.map_cons, List.sum_cons]
        omega
      · rw [hen2, hen1]
        simp only [List.map_cons, List.sum_cons]
        push_cast
        ring

theorem resolve_collisions_props {ce : ℚ} {rng : Rng} {old : Board Field}
    {b' : Board Field} {rng' : Rng}
    (hok : resolve_collisions ce rng old = .ok (b', rng'))
    (hwf : old.Wf) :
    b'.Wf ∧ b'.width = old.width ∧ b'.height = old.height ∧
    NoEmptyColl b' ∧
    countSum b' = countSum old ∧
    energySum b' = energySum old
      + (collSum old : ℚ) * (ce / (collSum old : ℚ)) := by
  have hbound : ∀ c ∈ old.indicesList, c.1 < old.width ∧ c.2 < old.height :=
    fun c hc => mem_indicesList hc
  have hfold := resolveFold_props old.indicesList
    (Board.new old.width old.height .Empty, rng) (b', rng') hok hbound
    (wf_new _ _ _) rfl rfl
  rcases hfold with ⟨hwf', hw', hh', hcnt, hen, hne⟩
  refine ⟨hwf', hw', hh', hne (noEmptyColl_new _ _), ?_, ?_⟩
  · rw [hcnt, countSum_new, sum_indices_countAt old hwf]
    omega
  · rw [hen, energySum_new, sum_indices_energyAt old hwf, sum_indices_collAt old hwf]
    have hgain : ce / (count_collisions old : ℚ) = ce / (collSum old : ℚ) := by
      rw [count_collisions_eq]
    rw [hgain]
    ring

theorem collSum_pos_of_has_collisions {b : Board Field}
    (hne : NoEmptyColl b) (hc : has_collisions b = true) :
    0 < collSum b := by
  rcases (has_collisions_iff b).mp hc with ⟨ss, hss⟩
  have hlen : 1 ≤ ss.length := by
    cases ss with
    | nil => exact absurd rfl (hne [] hss)
    | cons a t => simp
  have hmem : collCount (Field.Collision ss) ∈ b.fields.map collCount :=
    List.mem_map_of_mem collCount hss
  have hle : collCount (Field.Collision ss) ≤ (b.fields.map collCount).sum :=
    List.single_le_sum (fun x _ => Nat.zero_le x) _ hmem
  simp only [collCount] at hle
  simp only [collSum]
  omega

/-! ### The collision-resolution loop -/

theorem advanceLoop_props :
    ∀ (fuel : Nat) (ce : ℚ) (rng : Rng) (b : Board Field) (specimens : Nat)
      (out : ℚ × Rng × Board Field),
      advanceLoop fuel ce rng b specimens = .ok out →
      b.Wf → NoEmptyColl b →
      out.2.2.Wf ∧ NoEmptyColl out.2.2 ∧
      has_collisions out.2.2 = false ∧
      countSum out.2.2 = countSum b ∧
      out.1 + energySum out.2.2 = ce + energySum b := by
  intro fuel
  induction fuel with
  | zero =>
    intro ce rng b specimens out hok hwf hne
    simp only [advanceLoop] at hok
    by_cases hc : has_collisions b
    · simp [hc] at hok
    · simp only [hc] at hok
      simp only [Bool.false_eq_true, if_false] at hok
      cases hok
      exact ⟨hwf, hne, by simpa using hc, rfl, rfl⟩
  | succ f ih =>
    intro ce rng b specimens out hok hwf hne
    by_cases hc : has_collisions b
    · simp only [advanceLoop, hc, if_true] at hok
      by_cases hlt : count_specimens b < specimens
      · simp [hlt] at hok
      · simp only [hlt, if_false] at hok
        cases hres : resolve_collisions ce rng b with
        | error e => rw [hres] at hok; cases hok
        | ok pr =>
          rcases pr with ⟨b1, rng1⟩
          rw [hres] at hok
          rcases resolve_collisions_props hres hwf with
            ⟨hwf1, hw1, hh1, hne1, hcnt1, hen1⟩
          rcases ih 0 rng1 b1 specimens out hok hwf1 hne1 with
            ⟨hwf2, hne2, hcol2, hcnt2, hen2⟩
          refine ⟨hwf2, hne2, hcol2, by omega, ?_⟩
          have hpos : (0 : ℚ) < (collSum b : ℚ) := by
            exact_mod_cast collSum_pos_of_has_collisions hne hc
          have hcancel : (collSum b : ℚ) * (ce / (collSum b : ℚ)) = ce := by
            field_simp
          rw [hen2, hen1, hcancel]
          ring
    · simp only [advanceLoop, hc] at hok
      simp only [Bool.false_eq_true, if_false] at hok
      cases hok
      exact ⟨hwf, hne, by simpa using hc, rfl, rfl⟩

/-! ### The movement phase -/

theorem get_new_coords_mem {x y : Nat} (b : Board Field) (rng : Rng)
    (hx : x < b.width) (hy : y < b.height) :
    InClampedNbhd x y b.width b.height (get_new_coords x y b rng).1 := by
  have hc : (get_new_coords x y b rng).1
      = (x - 1 + rng.stream rng.pos % (min (x + 2) b.width - (x - 1)),
         y - 1 + rng.stream (rng.pos + 1) % (min (y + 2) b.height - (y - 1))) := rfl
  have hdx : 0 < min (x + 2) b.width - (x - 1) := by omega
  have hdy : 0 < min (y + 2) b.height - (y - 1) := by omega
  have hmx := Nat.mod_lt (rng.stream rng.pos) hdx
  have hmy := Nat.mod_lt (rng.stream (rng.pos + 1)) hdy
  rw [hc]
  exact ⟨by omega, by omega, by omega, by omega⟩

theorem update_specimen_props {cfg : GoodEvilConfig} {old : Board Field}
    {x y : Nat} {st st' : MoveState}
    (hok : update_specimen cfg old x y st = .ok st')
    (hx : x < old.width) (hy : y < old.height)
    (hwf : st.new.Wf) (hw : st.new.width = old.width)
    (hh : st.new.height = old.height) :
    st'.new.Wf ∧ st'.new.width = old.width ∧ st'.new.height = old.height ∧
    st'.collision_energy + energySum st'.new
      = st.collision_energy + energySum st.new + energyAt old (x, y) ∧
    (NoEmptyColl st.new → NoEmptyColl st'.new) := by
  cases hat : old.at x y with
  | none => simp [update_specimen, hat] at hok
  | some f =>
    cases f with
    | Empty =>
      simp only [update_specimen, hat] at hok
      cases hok
      refine ⟨hwf, hw, hh, ?_, fun h => h⟩
      simp [energyAt, hat, fieldEnergy]
    | Occupied s =>
      by_cases hdie : s.energy - cfg.energy_loss_per_step < cfg.deadly_energy_margin
      · simp only [update_specimen, hat, hdie, if_true] at hok
        cases hok
        refine ⟨hwf, hw, hh, ?_, fun h => h⟩
        simp only [energyAt, hat, fieldEnergy]
        ring
      · have hxy : x < st.new.width ∧ y < st.new.height := by
          rw [hw, hh]; exact ⟨hx, hy⟩
        have hnb := get_new_coords_mem st.new st.rng hxy.1 hxy.2
        have hbb := inClampedNbhd_bounds hnb
        have hlt : (get_new_coords x y st.new st.rng).1.2 * st.new.width
            + (get_new_coords x y st.new st.rng).1.1 < st.new.fields.length := by
          rw [hwf]
          exact flat_lt hbb.1 hbb.2
        rcases move_specimen_some ⟨s.energy - cfg.energy_loss_per_step⟩
          (get_new_coords x y st.new st.rng).1.1
          (get_new_coords x y st.new st.rng).1.2 hlt with ⟨b1, hb1⟩
        simp only [update_specimen, hat, hdie, if_false] at hok
        rw [hb1] at hok
        cases hok
        rcases move_specimen_props hb1 with ⟨hw1, hh1, hl1, _, he1, hn1⟩
        refine ⟨?_, hw1.trans hw, hh1.trans hh, ?_, hn1⟩
        · simp only [Board.Wf] at *
          rw [hl1, hw1, hh1, hwf]
        · simp only [he1, energyAt, hat, fieldEnergy]
          ring
    | Collision ss => simp [update_specimen, hat] at hok

theorem movementFold_props {cfg : GoodEvilConfig} {old : Board Field} :
    ∀ (cs : List (Nat × Nat)) (st st' : MoveState),
      movementFold cfg old cs st = .ok st' →
      (∀ c ∈ cs, c.1 < old.width ∧ c.2 < old.height) →
      st.new.Wf → st.new.width = old.width → st.new.height = old.height →
      st'.new.Wf ∧ st'.new.width = old.width ∧ st'.new.height = old.height ∧
      st'.collision_energy + energySum st'.new
        = st.collision_energy + energySum st.new + (cs.map (energyAt old)).sum ∧
      (NoEmptyColl st.new → NoEmptyColl st'.new) := by
  intro cs
  induction cs with
  | nil =>
    intro st st' hok _ hwf hw hh
    simp only [movementFold] at hok
    cases hok
    exact ⟨hwf, hw, hh, by simp, fun h => h⟩
  | cons c cs ih =>
    intro st st' hok hbound hwf hw hh
    cases hcell : update_specimen cfg old c.1 c.2 st with
    | error e => simp [movementFold, hcell] at hok
    | ok st1 =>
      simp only [movementFold, hcell] at hok
      have hc := hbound c (List.mem_cons_self c cs)
      rcases update_specimen_props hcell hc.1 hc.2 hwf hw hh with
        ⟨hwf1, hw1, hh1, hen1, hne1⟩
      rcases ih st1 st' hok (fun d hd => hbound d (List.mem_cons_of_mem c hd))
          hwf1 hw1 hh1 with ⟨hwf2, hw2, hh2, hen2, hne2⟩
      refine ⟨hwf2, hw2, hh2, ?_, fun h => hne2 (hne1 h)⟩
      rw [hen2]
      simp only [List.map_cons, List.sum_cons]
      have hcell_eq : energyAt old c = energyAt old (c.1, c.2) := by
        rcases c with ⟨cx, cy⟩; rfl
      rw [hcell_eq] at *
      linarith [hen1]

theorem movement_phase_props {g : GoodEvil} {st : MoveState}
    (hok : movementFold g.cfg g.board g.board.indicesList
      ⟨g.collision_energy, g.rng, Board.new g.board.width g.board.height .Empty⟩
      = .ok st)
    (hwf : g.board.Wf) :
    st.new.Wf ∧ st.new.width = g.board.width ∧ st.new.height = g.board.height ∧
    NoEmptyColl st.new ∧
    st.collision_energy + energySum st.new
      = g.collision_energy + energySum g.board := by
  have hbound : ∀ c ∈ g.board.indicesList,
      c.1 < g.board.width ∧ c.2 < g.board.height :=
    fun c hc => mem_indicesList hc
  rcases movementFold_props g.board.indicesList _ st hok hbound
      (wf_new _ _ _) rfl rfl with ⟨hwf', hw', hh', hen, hne⟩
  refine ⟨hwf', hw', hh', hne (noEmptyColl_new _ _), ?_⟩
  rw [hen, energySum_new, sum_indices_energyAt g.board hwf]
  ring

/-! ### Properties of a whole generation -/

theorem collCount_le_fieldCount (f : Field) : collCount f ≤ fieldCount f := by
  cases f <;> simp [collCount, fieldCount]

theorem collSum_le_countSum (b : Board Field) : collSum b ≤ countSum b :=
  List.sum_le_sum fun f _ => collCount_le_fieldCount f

theorem has_collisions_false_of_count_zero {b : Board Field}
    (hne : NoEmptyColl b) (hz : count_specimens b = 0) :
    has_collisions b = false := by
  by_contra h
  have hc : has_collisions b = true := by
    cases hhc : has_collisions b
    · exact absurd hhc h
    · rfl
  have h1 := collSum_pos_of_has_collisions hne hc
  have h2 := collSum_le_countSum b
  rw [count_specimens_eq] at hz
  omega

theorem advanceLoop_no_collisions {fuel : Nat} {ce : ℚ} {rng : Rng}
    {b : Board Field} {specimens : Nat} (hc : has_collisions b = false) :
    advanceLoop fuel ce rng b specimens = .ok (ce, rng, b) := by
  cases fuel <;> simp [advanceLoop, hc]

theorem advance_props {fuel : Nat} {g g' : GoodEvil}
    (hok : advance fuel g = .ok g') :
    g'.board.Wf ∧ NoEmptyColl g'.board ∧ has_collisions g'.board = false ∧
    1 ≤ count_specimens g'.board := by
  cases hmv : movementFold g.cfg g.board g.board.indicesList
      ⟨g.collision_energy, g.rng, Board.new g.board.width g.board.height .Empty⟩ with
  | error e => simp [advance, hmv] at hok
  | ok st =>
    have hbound : ∀ c ∈ g.board.indicesList,
        c.1 < g.board.width ∧ c.2 < g.board.height :=
      fun c hc => mem_indicesList hc
    rcases movementFold_props g.board.indicesList _ st hmv hbound
        (wf_new _ _ _) rfl rfl with ⟨hwf', _, _, _, hne⟩
    have hne' : NoEmptyColl st.new := hne (noEmptyColl_new _ _)
    cases hloop : advanceLoop fuel st.collision_energy st.rng st.new
        (count_specimens st.new) with
    | error e => simp [advance, hmv, hloop] at hok
    | ok out =>
      rcases out with ⟨ce, rng', board'⟩
      rcases advanceLoop_props fuel _ _ _ _ _ hloop hwf' hne' with
        ⟨hwf2, hne2, hcol2, hcnt2, _⟩
      by_cases hz : count_specimens st.new = 0
      · rw [hz] at hloop
        simp [advance, hmv, hz, hloop] at hok
      · simp only [advance, hmv, hloop, hz, if_false] at hok
        cases hok
        refine ⟨hwf2, hne2, hcol2, ?_⟩
        rw [count_specimens_eq, hcnt2, ← count_specimens_eq]
        omega

theorem advance_conservation_aux {fuel : Nat} {g g' : GoodEvil}
    (hwf : g.board.Wf) (hok : advance fuel g = .ok g') :
    g'.collision_energy + total_energy g'.board
      = g.collision_energy + total_energy g.board := by
  cases hmv : movementFold g.cfg g.board g.board.indicesList
      ⟨g.collision_energy, g.rng, Board.new g.board.width g.board.height .Empty⟩ with
  | error e => simp [advance, hmv] at hok
  | ok st =>
    rcases movement_phase_props hmv hwf with ⟨hwf', _, _, hne', hen'⟩
    cases hloop : advanceLoop fuel st.collision_energy st.rng st.new
        (count_specimens st.new) with
    | error e => simp [advance, hmv, hloop] at hok
    | ok out =>
      rcases out with ⟨ce, rng', board'⟩
      rcases advanceLoop_props fuel _ _ _ _ _ hloop hwf' hne' with
        ⟨_, _, _, _, hen2⟩
      by_cases hz : count_specimens st.new = 0
      · rw [hz] at hloop
        simp [advance, hmv, hz, hloop] at hok
      · simp only [advance, hmv, hloop, hz, if_false] at hok
        cases hok
        simp only [total_energy_eq] at *
        linarith

theorem not_collision_at_of_no_collisions {b : Board Field}
    (hcol : has_collisions b = false) :
    ∀ (x y : Nat) (ss : List Specimen),
      b.at x y ≠ some (Field.Collision ss) := by
  intro x y ss hat
  have hmem : Field.Collision ss ∈ b.fields := by
    rcases List.get?_eq_some.mp hat with ⟨hlt, hget⟩
    rw [← hget]
    exact List.get_mem _ _ hlt
  have := (has_collisions_iff b).mpr ⟨ss, hmem⟩
  rw [hcol] at this
  cases this

theorem advance_extinct_aux {fuel : Nat} {g : GoodEvil} {st : MoveState}
    (hmv : movementFold g.cfg g.board g.board.indicesList
      ⟨g.collision_energy, g.rng, Board.new g.board.width g.board.height .Empty⟩
      = .ok st)
    (hz : count_specimens st.new = 0) :
    advance fuel g = .error .extinct := by
  have hbound : ∀ c ∈ g.board.indicesList,
      c.1 < g.board.width ∧ c.2 < g.board.height :=
    fun c hc => mem_indicesList hc
  rcases movementFold_props g.board.indicesList _ st hmv hbound
      (wf_new _ _ _) rfl rfl with ⟨_, _, _, _, hne⟩
  have hne' : NoEmptyColl st.new := hne (noEmptyColl_new _ _)
  have hcol : has_collisions st.new = false :=
    has_collisions_false_of_count_zero hne' hz
  have hloop := @advanceLoop_no_collisions fuel st.collision_energy st.rng
    st.new (count_specimens st.new) hcol
  rw [hz] at hloop
  simp [advance, hmv, hz, hloop]

theorem update_specimen_ne_extinct (cfg : GoodEvilConfig) (old : Board Field)
    (x y : Nat) (st : MoveState) :
    update_specimen cfg old x y st ≠ .error .extinct := by
  intro h
  cases hat : old.at x y with
  | none => simp [update_specimen, hat] at h
  | some f =>
    cases f with
    | Empty => simp [update_specimen, hat] at h
    | Occupied s =>
      by_cases hdie :
          s.energy - cfg.energy_loss_per_step < cfg.deadly_energy_margin
      · simp [update_specimen, hat, hdie] at h
      · rcases hgnc : get_new_coords x y st.new st.rng with ⟨⟨tx, ty⟩, rng2⟩
        cases hmv : move_specimen ⟨s.energy - cfg.energy_loss_per_step⟩
            tx ty st.new with
        | none => simp [update_specimen, hat, hdie, hgnc, hmv] at h
        | some b => simp [update_specimen, hat, hdie, hgnc, hmv] at h
    | Collision ss => simp [update_specimen, hat] at h

theorem movementFold_ne_extinct (cfg : GoodEvilConfig) (old : Board Field) :
    ∀ (cs : List (Nat × Nat)) (st : MoveState),
      movementFold cfg old cs st ≠ .error .extinct := by
  intro cs
  induction cs with
  | nil => intro st h; simp [movementFold] at h
  | cons c cs ih =>
    intro st h
    cases hu : update_specimen cfg old c.1 c.2 st with
    | error e =>
      simp only [movementFold, hu] at h
      injection h with he
      exact update_specimen_ne_extinct cfg old c.1 c.2 st (he ▸ hu)
    | ok st1 =>
      simp only [movementFold, hu] at h
      exact ih st1 h

theorem placeAll_ne_extinct :
    ∀ (ps : List ((Nat × Nat) × Specimen)) (b : Board Field),
      placeAll ps b ≠ .error .extinct := by
  intro ps
  induction ps with
  | nil => intro b h; simp [placeAll] at h
  | cons p ps ih =>
    intro b h
    cases hm : move_specimen p.2 p.1.1 p.1.2 b with
    | none => simp [placeAll, hm] at h
    | some b1 =>
      simp only [placeAll, hm] at h
      exact ih b1 h

theorem assign_neighbors_ne_extinct (x y n : Nat) (b : Board Field)
    (rng : Rng) : assign_neighbors x y n b rng ≠ .error .extinct := by
  intro h
  simp only [assign_neighbors] at h
  split at h
  case isTrue => simp at h
  case isFalse => simp at h

theorem resolveCell_ne_extinct (gain : ℚ) (old : Board Field) (c : Nat × Nat)
    (acc : Board Field × Rng) : resolveCell gain old c acc ≠ .error .extinct := by
  intro h
  cases hat : old.at c.1 c.2 with
  | none => simp [resolveCell, hat] at h
  | some f =>
    cases f with
    | Empty => simp [resolveCell, hat] at h
    | Occupied s =>
      cases hm : move_specimen s c.1 c.2 acc.1 with
      | none => simp [resolveCell, hat, hm] at h
      | some b => simp [resolveCell, hat, hm] at h
    | Collision ss =>
      cases ha : assign_neighbors c.1 c.2
          (split_energy ss (ss.length * gain)).length acc.1 acc.2 with
      | error e =>
        simp only [resolveCell, hat, ha] at h
        injection h with he
        exact assign_neighbors_ne_extinct _ _ _ _ _ (he ▸ ha)
      | ok pr =>
        rcases pr with ⟨positions, rng'⟩
        cases hp : placeAll
            (positions.zip (split_energy ss (ss.length * gain))) acc.1 with
        | error e =>
          simp only [resolveCell, hat, ha, hp] at h
          injection h with he
          exact placeAll_ne_extinct _ _ (he ▸ hp)
        | ok b => simp [resolveCell, hat, ha, hp] at h

theorem resolveFold_ne_extinct (gain : ℚ) (old : Board Field) :
    ∀ (cs : List (Nat × Nat)) (acc : Board Field × Rng),
      resolveFold gain old cs acc ≠ .error .extinct := by
  intro cs
  induction cs with
  | nil => intro acc h; simp [resolveFold] at h
  | cons c cs ih =>
    intro acc h
    cases hc : resolveCell gain old c acc with
    | error e =>
      simp only [resolveFold, hc] at h
      injection h with he
      exact resolveCell_ne_extinct _ _ _ _ (he ▸ hc)
    | ok acc1 =>
      simp only [resolveFold, hc] at h
      exact ih acc1 h

theorem resolve_collisions_ne_extinct (ce : ℚ) (rng : Rng)
    (old : Board Field) : resolve_collisions ce rng old ≠ .error .extinct :=
  resolveFold_ne_extinct _ old old.indicesList _

theorem advanceLoop_ne_extinct :
    ∀ (fuel : Nat) (ce : ℚ) (rng : Rng) (b : Board Field) (specimens : Nat),
      advanceLoop fuel ce rng b specimens ≠ .error .extinct := by
  intro fuel
  induction fuel with
  | zero =>
    intro ce rng b specimens h
    by_cases hc : has_collisions b
    · simp [advanceLoop, hc] at h
    · simp [advanceLoop, hc] at h
  | succ f ih =>
    intro ce rng b specimens h
    by_cases hc : has_collisions b
    · simp only [advanceLoop, hc, if_true] at h
      by_cases hlt : count_specimens b < specimens
      · simp [hlt] at h
      · simp only [hlt, if_false] at h
        cases hres : resolve_collisions ce rng b with
        | error e =>
          rw [hres] at h
          injection h with he
          exact resolve_collisions_ne_extinct _ _ _ (he ▸ hres)
        | ok pr =>
          rcases pr with ⟨b1, rng1⟩
          rw [hres] at h
          exact ih 0 rng1 b1 specimens h
    · simp [advanceLoop, hc] at h

theorem advance_extinct_only {fuel : Nat} {g : GoodEvil}
    (h : advance fuel g = .error .extinct) :
    ∃ st, movementFold g.cfg g.board g.board.indicesList
        ⟨g.collision_energy, g.rng,
          Board.new g.board.width g.board.height .Empty⟩ = .ok st ∧
      count_specimens st.new = 0 := by
  cases hmv : movementFold g.cfg g.board g.board.indicesList
      ⟨g.collision_energy, g.rng,
        Board.new g.board.width g.board.height .Empty⟩ with
  | error e =>
    simp only [advance, hmv] at h
    injection h with he
    exact absurd (he ▸ hmv) (movementFold_ne_extinct g.cfg g.board _ _)
  | ok st =>
    refine ⟨st, rfl, ?_⟩
    simp only [advance, hmv] at h
    cases hloop : advanceLoop fuel st.collision_energy st.rng st.new
        (count_specimens st.new) with
    | error e =>
      rw [hloop] at h
      injection h with he
      exact absurd (he ▸ hloop) (advanceLoop_ne_extinct _ _ _ _ _)
    | ok out =>
      rcases out with ⟨ce, rng', board'⟩
      rw [hloop] at h
      by_cases hz : count_specimens st.new = 0
      · exact hz
      · simp [hz] at h

/-! ### The toroidal neighbor enumerator -/

theorem torus_sub_1_eq {a n : Nat} (i : Nat) (ha : a < n) (hi : i ≤ 2)
    (hn : 3 ≤ n) : torus_sub_1 (a + i) n = some (wrapCoord a i n) := by
  by_cases h0 : a + i = 0
  · have hv : wrapCoord a i n = n - 1 := by
      unfold wrapCoord
      have he : a + i + (n - 1) = n - 1 := by omega
      rw [he, Nat.mod_eq_of_lt (by omega)]
    rw [hv]
    unfold torus_sub_1
    rw [if_pos h0]
  · by_cases h1 : n < a + i
    · have he : a + i = n + 1 := by omega
      have hv : wrapCoord a i n = 0 := by
        unfold wrapCoord
        have h2 : a + i + (n - 1) = 2 * n := by omega
        rw [h2, Nat.mul_mod_left]
      rw [hv]
      unfold torus_sub_1
      rw [if_neg h0, if_pos h1, if_pos he]
    · have hv : wrapCoord a i n = a + i - 1 := by
        unfold wrapCoord
        have h2 : a + i + (n - 1) = (a + i - 1) + n := by omega
        rw [h2, Nat.add_mod_right, Nat.mod_eq_of_lt (by omega)]
      rw [hv]
      unfold torus_sub_1
      rw [if_neg h0, if_neg (by omega : ¬ n < a + i)]

theorem wrapCoord_zero {a n : Nat} (ha : a < n) (hn : 3 ≤ n) :
    wrapCoord a 0 n = if a = 0 then n - 1 else a - 1 := by
  unfold wrapCoord
  by_cases h0 : a = 0
  · subst h0
    rw [if_pos rfl]
    have he : 0 + 0 + (n - 1) = n - 1 := by omega
    rw [he, Nat.mod_eq_of_lt (by omega)]
  · rw [if_neg h0]
    have he : a + 0 + (n - 1) = (a - 1) + n := by omega
    rw [he, Nat.add_mod_right, Nat.mod_eq_of_lt (by omega)]

theorem wrapCoord_one {a n : Nat} (ha : a < n) (hn : 3 ≤ n) :
    wrapCoord a 1 n = a := by
  unfold wrapCoord
  have he : a + 1 + (n - 1) = a + n := by omega
  rw [he, Nat.add_mod_right, Nat.mod_eq_of_lt ha]

theorem wrapCoord_two {a n : Nat} (ha : a < n) (hn : 3 ≤ n) :
    wrapCoord a 2 n = if a = n - 1 then 0 else a + 1 := by
  unfold wrapCoord
  by_cases h0 : a = n - 1
  · rw [if_pos h0]
    have he : a + 2 + (n - 1) = 2 * n := by omega
    rw [he, Nat.mul_mod_left]
  · rw [if_neg h0]
    have he : a + 2 + (n - 1) = (a + 1) + n := by omega
    rw [he, Nat.add_mod_right, Nat.mod_eq_of_lt (by omega)]

theorem wrapCoord_pairwise_ne {a n : Nat} (ha : a < n) (hn : 3 ≤ n) :
    wrapCoord a 0 n ≠ wrapCoord a 1 n ∧
    wrapCoord a 0 n ≠ wrapCoord a 2 n ∧
    wrapCoord a 1 n ≠ wrapCoord a 2 n := by
  rw [wrapCoord_zero ha hn, wrapCoord_one ha hn, wrapCoord_two ha hn]
  by_cases h0 : a = 0
  · have h1 : ¬ (a = n - 1) := by omega
    simp only [if_pos h0, if_neg h1]
    omega
  · by_cases h1 : a = n - 1
    · simp only [if_neg h0, if_pos h1]
      omega
    · simp only [if_neg h0, if_neg h1]
      omega

theorem wrapCoord_ne_center {a n : Nat} (ha : a < n) (hn : 3 ≤ n) :
    wrapCoord a 0 n ≠ a ∧ wrapCoord a 2 n ≠ a := by
  rw [wrapCoord_zero ha hn, wrapCoord_two ha hn]
  by_cases h0 : a = 0
  · have h1 : ¬ (a = n - 1) := by omega
    simp only [if_pos h0, if_neg h1]
    omega
  · by_cases h1 : a = n - 1
    · simp only [if_neg h0, if_pos h1]
      omega
    · simp only [if_neg h0, if_neg h1]
      omega

theorem torusRun_yield {fuel : Nat} {s s' : TorusNeighbors} {c : Nat × Nat}
    (h : torusStep s = .yield c s') :
    torusRun (fuel + 1) s = (torusRun fuel s').map (c :: ·) := by
  simp [torusRun, h]

theorem torusRun_done {fuel : Nat} {s : TorusNeighbors}
    (h : torusStep s = .done) : torusRun (fuel + 1) s = some [] := by
  simp [torusRun, h]

theorem torus_neighbors_eq {x y N : Nat} (hN : 3 ≤ N) (hx : x < N)
    (hy : y < N) :
    torus_neighbors x y N N = some (torusExpected x y N) := by
  have ex0 : torus_sub_1 x N = some (wrapCoord x 0 N) := by
    simpa using torus_sub_1_eq 0 hx (by omega) hN
  have ex1 : torus_sub_1 (x + 1) N = some (wrapCoord x 1 N) :=
    torus_sub_1_eq 1 hx (by omega) hN
  have ex2 : torus_sub_1 (x + 2) N = some (wrapCoord x 2 N) :=
    torus_sub_1_eq 2 hx (by omega) hN
  have ey0 : torus_sub_1 y N = some (wrapCoord y 0 N) := by
    simpa using torus_sub_1_eq 0 hy (by omega) hN
  have ey1 : torus_sub_1 (y + 1) N = some (wrapCoord y 1 N) :=
    torus_sub_1_eq 1 hy (by omega) hN
  have ey2 : torus_sub_1 (y + 2) N = some (wrapCoord y 2 N) :=
    torus_sub_1_eq 2 hy (by omega) hN
  have h0 : torusStep ⟨x, y, 0, N, N⟩
      = .yield (wrapCoord x 0 N, wrapCoord y 0 N) ⟨x, y, 1, N, N⟩ := by
    simp [torusStep, ex0, ey0]
  have h1 : torusStep ⟨x, y, 1, N, N⟩
      = .yield (wrapCoord x 1 N, wrapCoord y 0 N) ⟨x, y, 2, N, N⟩ := by
    simp [torusStep, ex1, ey0]
  have h2 : torusStep ⟨x, y, 2, N, N⟩
      = .yield (wrapCoord x 2 N, wrapCoord y 0 N) ⟨x, y, 3, N, N⟩ := by
    simp [torusStep, ex2, ey0]
  have h3 : torusStep ⟨x, y, 3, N, N⟩
      = .yield (wrapCoord x 0 N, wrapCoord y 1 N) ⟨x, y, 5, N, N⟩ := by
    simp [torusStep, ex0, ey1]
  have h5 : torusStep ⟨x, y, 5, N, N⟩
      = .yield (wrapCoord x 2 N, wrapCoord y 1 N) ⟨x, y, 6, N, N⟩ := by
    simp [torusStep, ex2, ey1]
  have h6 : torusStep ⟨x, y, 6, N, N⟩
      = .yield (wrapCoord x 0 N, wrapCoord y 2 N) ⟨x, y, 7, N, N⟩ := by
    simp [torusStep, ex0, ey2]
  have h7 : torusStep ⟨x, y, 7, N, N⟩
      = .yield (wrapCoord x 1 N, wrapCoord y 2 N) ⟨x, y, 8, N, N⟩ := by
    simp [torusStep, ex1, ey2]
  have h8 : torusStep ⟨x, y, 8, N, N⟩
      = .yield (wrapCoord x 2 N, wrapCoord y 2 N) ⟨x, y, 9, N, N⟩ := by
    simp [torusStep, ex2, ey2]
  have h9 : torusStep ⟨x, y, 9, N, N⟩ = .done := by
    simp [torusStep]
  show torusRun (9 + 1) ⟨x, y, 0, N, N⟩ = some (torusExpected x y N)
  rw [torusRun_yield h0]
  show (torusRun (8 + 1) ⟨x, y, 1, N, N⟩).map _ = _
  rw [torusRun_yield h1]
  show ((torusRun (7 + 1) ⟨x, y, 2, N, N⟩).map _).map _ = _
  rw [torusRun_yield h2]
  show (((torusRun (6 + 1) ⟨x, y, 3, N, N⟩).map _).map _).map _ = _
  rw [torusRun_yield h3]
  show ((((torusRun (5 + 1) ⟨x, y, 5, N, N⟩).map _).map _).map _).map _ = _
  rw [torusRun_yield h5]
  show (((((torusRun (4 + 1) ⟨x, y, 6, N, N⟩).map _).map _).map _).map _).map _
      = _
  rw [torusRun_yield h6]
  show ((((((torusRun (3 + 1) ⟨x, y, 7, N, N⟩).map _).map _).map _).map _).map
      _).map _ = _
  rw [torusRun_yield h7]
  show (((((((torusRun (2 + 1) ⟨x, y, 8, N, N⟩).map _).map _).map _).map
      _).map _).map _).map _ = _
  rw [torusRun_yield h8]
  show ((((((((torusRun (1 + 1) ⟨x, y, 9, N, N⟩).map _).map _).map _).map
      _).map _).map _).map _).map _ = _
  rw [torusRun_done h9]
  rfl

theorem torusExpected_length (x y N : Nat) : (torusExpected x y N).length = 8 := by
  simp [torusExpected]

theorem torusExpected_nodup {x y N : Nat} (hN : 3 ≤ N) (hx : x < N)
    (hy : y < N) : (torusExpected x y N).Nodup := by
  obtain ⟨hx01, hx02, hx12⟩ := wrapCoord_pairwise_ne hx hN
  obtain ⟨hy01, hy02, hy12⟩ := wrapCoord_pairwise_ne hy hN
  simp only [torusExpected, List.nodup_cons, List.mem_cons, List.not_mem_nil,
    or_false, Prod.mk.injEq, not_or, List.nodup_nil, and_true,
    not_false_eq_true]
  refine ⟨?_, ?_, ?_, ?_, ?_, ?_, ?_⟩ <;> omega

theorem torusExpected_not_center {x y N : Nat} (hN : 3 ≤ N) (hx : x < N)
    (hy : y < N) : (x, y) ∉ torusExpected x y N := by
  obtain ⟨hxc0, hxc2⟩ := wrapCoord_ne_center hx hN
  obtain ⟨hyc0, hyc2⟩ := wrapCoord_ne_center hy hN
  simp only [torusExpected, List.mem_cons, List.not_mem_nil, or_false,
    Prod.mk.injEq, not_or]
  refine ⟨?_, ?_, ?_, ?_, ?_, ?_, ?_, ?_⟩ <;> omega

/-! ### Concrete runs of the engine -/

theorem c1_step1 : update_specimen c1_engine.cfg c1_engine.board 0 0
    ⟨0, rng0, Board.new 2 2 .Empty⟩
    = .ok ⟨1, ⟨fun _ => 0, 2⟩,
        ⟨[Field.Occupied ⟨9⟩, Field.Empty, Field.Empty, Field.Empty], 2, 2⟩⟩ := by
  norm_num [update_specimen, c1_engine, Board.at, get_new_coords, Rng.genRange,
    rng0, move_specimen, Board.new, Board.setCell, mergeField, Specimen.mk.injEq]
  decide

theorem c1_mv : movementFold c1_engine.cfg c1_engine.board
    c1_engine.board.indicesList
    ⟨c1_engine.collision_energy, c1_engine.rng,
      Board.new c1_engine.board.width c1_engine.board.height .Empty⟩
    = .ok ⟨1, ⟨fun _ => 0, 2⟩, c1_result.board⟩ := by
  have hidx : c1_engine.board.indicesList = [(0, 0), (1, 0), (0, 1), (1, 1)] := rfl
  rw [hidx]
  show movementFold c1_engine.cfg c1_engine.board [(0, 0), (1, 0), (0, 1), (1, 1)]
    ⟨0, rng0, Board.new 2 2 .Empty⟩ = _
  simp only [movementFold, c1_step1]
  rfl

theorem c1_run : advance 10 c1_engine = Except.ok c1_result := by
  simp only [advance, c1_mv]
  rfl

theorem c10_gain : (4 : ℚ) / ((count_collisions c10_old : Nat) : ℚ) = 2 := by
  norm_num [count_collisions, c10_old]

theorem c10_split : split_energy [⟨1⟩, ⟨2⟩]
    ((([⟨1⟩, ⟨2⟩] : List Specimen).length : ℚ) * (2 : ℚ)) = [⟨5⟩, ⟨2⟩] := by
  norm_num [split_energy, split_energy_weak_takes_all, sortSpecimens,
    List.insertionSort, List.orderedInsert, Specimen.mk.injEq]

theorem c10_assign : assign_neighbors 0 0
    (([⟨5⟩, ⟨2⟩] : List Specimen).length) (Board.new 2 2 .Empty) rng0
    = .ok ([(0, 0), (0, 1)], ⟨fun _ => 0, 4⟩) := rfl

theorem c10_place :
    placeAll ([((0 : Nat), (0 : Nat)), (0, 1)].zip [(⟨5⟩ : Specimen), ⟨2⟩])
      (Board.new 2 2 .Empty) = .ok c10_new := rfl

theorem c10_cell : resolveCell 2 c10_old (0, 0) (Board.new 2 2 .Empty, rng0)
    = .ok (c10_new, ⟨fun _ => 0, 4⟩) := by
  simp only [resolveCell,
    show c10_old.at 0 0 = some (.Collision [⟨1⟩, ⟨2⟩]) from rfl,
    c10_split, c10_assign, c10_place]

theorem c10_run : resolve_collisions 4 rng0 c10_old
    = Except.ok (c10_new, ⟨fun _ => 0, 4⟩) := by
  show resolveFold ((4 : ℚ) / ((count_collisions c10_old : Nat) : ℚ)) c10_old
    c10_old.indicesList
    (Board.new c10_old.width c10_old.height .Empty, rng0) = _
  rw [c10_gain]
  show resolveFold 2 c10_old [(0, 0), (1, 0), (0, 1), (1, 1)]
    (Board.new 2 2 .Empty, rng0) = _
  simp only [resolveFold, c10_cell]
  rfl

theorem c8_mv : movementFold c8_engine.cfg c8_engine.board
    c8_engine.board.indicesList
    ⟨c8_engine.collision_energy, c8_engine.rng,
      Board.new c8_engine.board.width c8_engine.board.height .Empty⟩
    = .ok c8_st := by
  have hidx : c8_engine.board.indicesList = [(0, 0), (1, 0), (0, 1), (1, 1)] := rfl
  rw [hidx]
  show movementFold c8_engine.cfg c8_engine.board [(0, 0), (1, 0), (0, 1), (1, 1)]
    ⟨0, rng0, Board.new 2 2 .Empty⟩ = _
  have hstep : update_specimen c8_engine.cfg c8_engine.board 0 0
      ⟨0, rng0, Board.new 2 2 .Empty⟩ = .ok c8_st := by
    norm_num [update_specimen, c8_engine, Board.at, c8_st]
  simp only [movementFold, hstep]
  rfl

theorem c8_count : count_specimens c8_st.new = 0 := rfl

/-! ## Claim theorems -/

/-- C1, counterexample: the claimed identity `(live energy after) + pool =
(live energy before) − live_count_before × energy_loss_per_step` fails on a
concrete normally-returning `advance` call: one specimen of energy 10, loss 1,
empty pool.  The left side is 10, the claimed right side is 9. -/
theorem claim_C1_counterexample :
    advance 10 c1_engine = Except.ok c1_result ∧
    total_energy c1_result.board + c1_result.collision_energy = 10 ∧
    total_energy c1_engine.board
      - (count_specimens c1_engine.board : ℚ)
        * c1_engine.cfg.energy_loss_per_step = 9 ∧
    (10 : ℚ) ≠ 9 := by
  refine ⟨c1_run, ?_, ?_, by norm_num⟩
  · norm_num [total_energy, c1_result]
  · norm_num [total_energy, count_specimens, c1_engine]

/-- C1, amended: after `advance()` returns normally, the sum of all live
specimen energies plus the `collision_energy` pool equals the same total before
the generation — the per-step losses and the energies of dead specimens are
moved into the pool (and resolution passes return the pool to the specimens),
never subtracted from the overall total. -/
theorem claim_C1 : ∀ (fuel : Nat) (g g' : GoodEvil),
    g.board.Wf → advance fuel g = .ok g' →
    total_energy g'.board + g'.collision_energy
      = total_energy g.board + g.collision_energy := by
  intro fuel g g' hwf hok
  have h := advance_conservation_aux hwf hok
  linarith

/-- C1, witness: the amended conservation law at the concrete run of
`c1_engine` (10 + 0 before, 9 + 1 after). -/
theorem claim_C1_witness :
    c1_engine.board.Wf ∧
    total_energy c1_result.board + c1_result.collision_energy
      = total_energy c1_engine.board + c1_engine.collision_energy :=
  ⟨rfl, claim_C1 10 c1_engine c1_result rfl c1_run⟩

/-- C2: during the collision-resolution loop, the total specimen count
(Empty = 0, Occupied = 1, Collision = contestant-list length) never decreases
from one pass to the next — a successful pass preserves it — and a count below
the loop's baseline is detected by the per-pass assertion and is fatal
(`nonMonotonic`). -/
theorem claim_C2 :
    (∀ (ce : ℚ) (rng : Rng) (old b' : Board Field) (rng' : Rng),
      old.Wf → resolve_collisions ce rng old = .ok (b', rng') →
      count_specimens old ≤ count_specimens b')
    ∧ (∀ (fuel : Nat) (ce : ℚ) (rng : Rng) (b : Board Field) (specimens : Nat),
      has_collisions b = true → count_specimens b < specimens →
      advanceLoop (fuel + 1) ce rng b specimens = .error .nonMonotonic) := by
  constructor
  · intro ce rng old b' rng' hwf hok
    rcases resolve_collisions_props hok hwf with ⟨_, _, _, _, hcnt, _⟩
    rw [count_specimens_eq, count_specimens_eq, hcnt]
  · intro fuel ce rng b specimens hc hlt
    simp [advanceLoop, hc, hlt]

/-- C2, witness: a concrete resolution pass preserving the count, and a
concrete fatal detection of a count below the baseline. -/
theorem claim_C2_witness :
    count_specimens c10_old ≤ count_specimens c10_new ∧
    advanceLoop 1 0 rng0 c10_old 5 = .error .nonMonotonic :=
  ⟨claim_C2.1 4 rng0 c10_old c10_new ⟨fun _ => 0, 4⟩ rfl c10_run,
   claim_C2.2 0 0 rng0 c10_old 5 rfl (by decide)⟩

/-- C3, counterexample: on a 2×2 board, the read `at(2, 0)` has `x ≥ width`
and yet silently returns a value — the cell stored at `(0, 1)` — and the
corresponding write access silently updates that aliased slot instead of
failing. -/
theorem claim_C3_counterexample :
    c3_board.width ≤ 2 ∧
    c3_board.at 2 0 = some 12 ∧
    c3_board.at 0 1 = some 12 ∧
    c3_board.set? 2 0 99 = some (⟨[10, 11, 99, 13], 2, 2⟩ : Board Nat) :=
  ⟨by decide, rfl, rfl, rfl⟩

/-- C3, amended: `at(x, y)` and the write access are fatal exactly when the
flat index `y * width + x` falls outside the `width * height` array.  In
particular `y ≥ height` is always fatal, but an out-of-bounds `x` whose flat
index stays inside the array silently aliases a cell of a later row. -/
theorem claim_C3 : ∀ (α : Type) (b : Board α) (x y : Nat) (v : α), b.Wf →
    ((b.at x y = none ↔ b.width * b.height ≤ y * b.width + x) ∧
     (b.set? x y v = none ↔ b.width * b.height ≤ y * b.width + x) ∧
     (b.height ≤ y → b.at x y = none) ∧
     (b.width ≤ x → y * b.width + x < b.width * b.height →
       ∃ a, b.at x y = some a)) := by
  intro α b x y v hwf
  have hlen : b.fields.length = b.width * b.height := hwf
  refine ⟨?_, ?_, ?_, ?_⟩
  · rw [Board.at, List.get?_eq_none, hlen]
  · rw [Board.set?, hlen]
    constructor
    · intro h
      by_contra hcon
      rw [if_pos (by omega)] at h
      cases h
    · intro h
      rw [if_neg (by omega)]
  · intro hy
    rw [Board.at, List.get?_eq_none, hlen]
    have h1 : b.height * b.width ≤ y * b.width :=
      Nat.mul_le_mul_right b.width hy
    have h2 : b.width * b.height = b.height * b.width := Nat.mul_comm _ _
    omega
  · intro _ hflat
    rw [Board.at]
    have hlt : y * b.width + x < b.fields.length := by omega
    exact ⟨_, List.get?_eq_get hlt⟩

/-- C3, witness: the amended statement instantiated at the concrete 2×2 board
and the aliasing coordinate `(2, 0)`. -/
theorem claim_C3_witness :
    (c3_board.at 2 0 = none ↔ c3_board.width * c3_board.height ≤ 2) ∧
    (c3_board.set? 2 0 99 = none ↔ c3_board.width * c3_board.height ≤ 2) ∧
    (c3_board.height ≤ 0 → c3_board.at 2 0 = none) ∧
    (c3_board.width ≤ 2 → 2 < c3_board.width * c3_board.height →
      ∃ a, c3_board.at 2 0 = some a) :=
  claim_C3 Nat c3_board 2 0 99 rfl

/-- C4: for an `Occupied(s)` cell in the movement phase, `energy_loss_per_step`
is pooled unconditionally and subtracted from the specimen; below
`deadly_energy_margin` the specimen dies — its remaining energy is also pooled
and nothing is placed (the state's board is unchanged); otherwise the reduced
specimen is placed (merge rule) at the drawn destination, which always lies in
the clamped non-wrapping 3×3 neighborhood of `(x, y)` — including `(x, y)`,
bounded by the edges — and every neighborhood cell is reachable by some
sampler stream (uniformity of the draw is inherited from the external uniform
sampler the two `gen_range` calls consume). -/
theorem claim_C4 :
    ∀ (cfg : GoodEvilConfig) (old : Board Field) (x y : Nat) (st : MoveState)
      (s : Specimen),
      old.at x y = some (.Occupied s) →
      x < old.width → y < old.height →
      st.new.Wf → st.new.width = old.width → st.new.height = old.height →
      (s.energy - cfg.energy_loss_per_step < cfg.deadly_energy_margin →
        update_specimen cfg old x y st
          = .ok ⟨st.collision_energy + cfg.energy_loss_per_step
              + (s.energy - cfg.energy_loss_per_step), st.rng, st.new⟩) ∧
      (¬ (s.energy - cfg.energy_loss_per_step < cfg.deadly_energy_margin) →
        InClampedNbhd x y old.width old.height
          (get_new_coords x y st.new st.rng).1 ∧
        ∃ st', update_specimen cfg old x y st = .ok st' ∧
          st'.collision_energy
            = st.collision_energy + cfg.energy_loss_per_step ∧
          st'.rng = (get_new_coords x y st.new st.rng).2 ∧
          move_specimen ⟨s.energy - cfg.energy_loss_per_step⟩
            (get_new_coords x y st.new st.rng).1.1
            (get_new_coords x y st.new st.rng).1.2 st.new = some st'.new) ∧
      (∀ c : Nat × Nat, InClampedNbhd x y old.width old.height c →
        ∃ stream : Nat → Nat,
          (get_new_coords x y st.new ⟨stream, 0⟩).1 = c) := by
  intro cfg old x y st s hat hx hy hwf hw hh
  refine ⟨?_, ?_, ?_⟩
  · intro hdie
    simp [update_specimen, hat, hdie]
  · intro hsurv
    have hxy : x < st.new.width := by rw [hw]; exact hx
    have hyy : y < st.new.height := by rw [hh]; exact hy
    have hnb := get_new_coords_mem st.new st.rng hxy hyy
    rw [hw, hh] at hnb
    refine ⟨hnb, ?_⟩
    have hbb := inClampedNbhd_bounds hnb
    have hd1 : (get_new_coords x y st.new st.rng).1.1 < st.new.width := by
      rw [hw]; exact hbb.1
    have hd2 : (get_new_coords x y st.new st.rng).1.2 < st.new.height := by
      rw [hh]; exact hbb.2
    have hlt : (get_new_coords x y st.new st.rng).1.2 * st.new.width
        + (get_new_coords x y st.new st.rng).1.1 < st.new.fields.length := by
      rw [hwf]; exact flat_lt hd1 hd2
    rcases move_specimen_some ⟨s.energy - cfg.energy_loss_per_step⟩ _ _ hlt with
      ⟨b1, hb1⟩
    refine ⟨⟨st.collision_energy + cfg.energy_loss_per_step,
      (get_new_coords x y st.new st.rng).2, b1⟩, ?_, rfl, rfl, hb1⟩
    rcases hgnc : get_new_coords x y st.new st.rng with ⟨⟨tx, ty⟩, rng2⟩
    rw [hgnc] at hb1
    simp only [update_specimen, hat, hsurv, if_false, hgnc, hb1]
  · intro c hc
    rcases hc with ⟨h1, h2, h3, h4⟩
    refine ⟨fun p => if p = 0 then c.1 - (x - 1) else c.2 - (y - 1), ?_⟩
    have hfst : (get_new_coords x y st.new
        ⟨fun p => if p = 0 then c.1 - (x - 1) else c.2 - (y - 1), 0⟩).1
        = (x - 1 + (c.1 - (x - 1)) % (min (x + 2) st.new.width - (x - 1)),
           y - 1 + (c.2 - (y - 1)) % (min (y + 2) st.new.height - (y - 1))) := rfl
    rw [hfst, hw, hh]
    have hm1 : (c.1 - (x - 1)) % (min (x + 2) old.width - (x - 1))
        = c.1 - (x - 1) := Nat.mod_eq_of_lt (by omega)
    have hm2 : (c.2 - (y - 1)) % (min (y + 2) old.height - (y - 1))
        = c.2 - (y - 1) := Nat.mod_eq_of_lt (by omega)
    rw [hm1, hm2]
    rcases c with ⟨cx, cy⟩
    simp only [Prod.mk.injEq]
    constructor <;> omega

/-- C4, witness: the movement rule at the concrete surviving specimen of
`c1_engine` at `(0, 0)`. -/
theorem claim_C4_witness :
    ((10 : ℚ) - 1 < 0 →
      update_specimen c1_engine.cfg c1_engine.board 0 0
        ⟨0, rng0, Board.new 2 2 .Empty⟩ = .ok ⟨0 + 1 + ((10 : ℚ) - 1), rng0,
          Board.new 2 2 .Empty⟩) ∧
    (¬ ((10 : ℚ) - 1 < 0) →
      InClampedNbhd 0 0 c1_engine.board.width c1_engine.board.height
        (get_new_coords 0 0 (Board.new 2 2 .Empty) rng0).1 ∧
      ∃ st', update_specimen c1_engine.cfg c1_engine.board 0 0
          ⟨0, rng0, Board.new 2 2 .Empty⟩ = .ok st' ∧
        st'.collision_energy = 0 + 1 ∧
        st'.rng = (get_new_coords 0 0 (Board.new 2 2 .Empty) rng0).2 ∧
        move_specimen ⟨(10 : ℚ) - 1⟩
          (get_new_coords 0 0 (Board.new 2 2 .Empty) rng0).1.1
          (get_new_coords 0 0 (Board.new 2 2 .Empty) rng0).1.2
          (Board.new 2 2 .Empty) = some st'.new) ∧
    (∀ c : Nat × Nat,
      InClampedNbhd 0 0 c1_engine.board.width c1_engine.board.height c →
      ∃ stream : Nat → Nat,
        (get_new_coords 0 0 (Board.new 2 2 .Empty) ⟨stream, 0⟩).1 = c) :=
  claim_C4 c1_engine.cfg c1_engine.board 0 0 ⟨0, rng0, Board.new 2 2 .Empty⟩
    ⟨10⟩ rfl (by decide) (by decide) rfl rfl rfl

/-- C5: the merge rule of `move_specimen` — an `Empty` destination becomes
`Occupied`, an `Occupied(other)` destination becomes `Collision([other,
specimen])` with the prior occupant first, a `Collision(list)` destination has
the specimen appended — and no other cell of the grid changes. -/
theorem claim_C5 :
    ∀ (s : Specimen) (dx dy : Nat) (b : Board Field) (f : Field),
      b.Wf → dx < b.width → dy < b.height →
      b.at dx dy = some f →
      (move_specimen s dx dy b = some (b.setCell dx dy (mergeField f s)) ∧
       mergeField Field.Empty s = Field.Occupied s ∧
       (∀ t, mergeField (Field.Occupied t) s = Field.Collision [t, s]) ∧
       (∀ ss, mergeField (Field.Collision ss) s
          = Field.Collision (ss ++ [s])) ∧
       (∀ x' y', x' < b.width → y' < b.height → (x', y') ≠ (dx, dy) →
         (b.setCell dx dy (mergeField f s)).at x' y' = b.at x' y')) := by
  intro s dx dy b f hwf hx hy hat
  refine ⟨?_, rfl, fun t => rfl, fun ss => rfl, ?_⟩
  · simp [move_specimen, hat]
  · intro x' y' hx' hy' hne
    apply Board.at_setCell_ne
    intro heq
    rcases flat_inj hx hx' heq with ⟨he1, he2⟩
    exact hne (by simp [he1, he2])

/-- C5, witness: the merge rule at a concrete placement into the empty cell
`(1, 0)` of the `c1_engine` board. -/
theorem claim_C5_witness :
    move_specimen ⟨3⟩ 1 0 c1_engine.board
      = some (c1_engine.board.setCell 1 0 (mergeField Field.Empty ⟨3⟩)) ∧
    mergeField Field.Empty (⟨3⟩ : Specimen) = Field.Occupied ⟨3⟩ ∧
    (∀ t, mergeField (Field.Occupied t) (⟨3⟩ : Specimen)
      = Field.Collision [t, ⟨3⟩]) ∧
    (∀ ss, mergeField (Field.Collision ss) (⟨3⟩ : Specimen)
      = Field.Collision (ss ++ [⟨3⟩])) ∧
    (∀ x' y', x' < c1_engine.board.width → y' < c1_engine.board.height →
      (x', y') ≠ (1, 0) →
      (c1_engine.board.setCell 1 0 (mergeField Field.Empty ⟨3⟩)).at x' y'
        = c1_engine.board.at x' y') :=
  claim_C5 ⟨3⟩ 1 0 c1_engine.board Field.Empty rfl (by decide) (by decide) rfl

/-- C6: the weak-takes-all split sorts the contestants ascending by energy,
adds the entire available entitlement to the single weakest contestant and
leaves the others unchanged; a `Collision` cell holding `ss` contributes
exactly `(contestant energy sum) + #contestants × energy_gain` to the next
grid; and over a whole pass the energy injected is
`count_collisions × (collision_energy / count_collisions)` with
`energy_gain_per_specimen = collision_energy / count_collisions`. -/
theorem claim_C6 :
    (∀ (ss : List Specimen) (e : ℚ), ss ≠ [] →
      ∃ first rest, sortSpecimens ss = first :: rest ∧
        (first :: rest).Perm ss ∧
        List.Sorted (fun a b => a.energy ≤ b.energy) (first :: rest) ∧
        (∀ t ∈ rest, first.energy ≤ t.energy) ∧
        split_energy ss e = ⟨first.energy + e⟩ :: rest)
    ∧ (∀ (gain : ℚ) (old : Board Field) (c : Nat × Nat)
        (acc acc' : Board Field × Rng) (ss : List Specimen),
        old.at c.1 c.2 = some (Field.Collision ss) →
        resolveCell gain old c acc = .ok acc' →
        acc.1.Wf → acc.1.width = old.width → acc.1.height = old.height →
        c.1 < old.width → c.2 < old.height →
        energySum acc'.1 = energySum acc.1 + (ss.map Specimen.energy).sum
          + (ss.length : ℚ) * gain)
    ∧ (∀ (ce : ℚ) (rng : Rng) (old b' : Board Field) (rng' : Rng),
        old.Wf → resolve_collisions ce rng old = .ok (b', rng') →
        total_energy b' = total_energy old
          + (count_collisions old : ℚ)
            * (ce / (count_collisions old : ℚ))) := by
  refine ⟨?_, ?_, ?_⟩
  · intro ss e hne
    cases hsort : sortSpecimens ss with
    | nil =>
      exfalso
      have hp0 : ss.Perm ([] : List Specimen) := by
        rw [← hsort]
        exact (sortSpecimens_perm ss).symm
      exact hne hp0.eq_nil
    | cons first rest =>
      have hs := sortSpecimens_sorted ss
      rw [hsort] at hs
      refine ⟨first, rest, rfl, ?_, hs, ?_, ?_⟩
      · rw [← hsort]
        exact sortSpecimens_perm ss
      · intro t ht
        exact List.rel_of_sorted_cons hs t ht
      · simp [split_energy, split_energy_weak_takes_all, hsort]
  · intro gain old c acc acc' ss hat hok hwf hw hh hc1 hc2
    rcases resolveCell_props hok hwf hw hh hc1 hc2 with ⟨_, _, _, _, hen, _⟩
    rw [hen]
    simp [energyAt, collAt, hat, fieldEnergy, collCount]
  · intro ce rng old b' rng' hwf hok
    rcases resolve_collisions_props hok hwf with ⟨_, _, _, _, _, hen⟩
    rw [total_energy_eq, total_energy_eq, hen, count_collisions_eq]

/-- C6, witness: the weak-takes-all characterization at the concrete
contestant list `[⟨2⟩, ⟨1⟩]` with entitlement 5. -/
theorem claim_C6_witness :
    ∃ first rest, sortSpecimens [⟨2⟩, ⟨1⟩] = first :: rest ∧
      (first :: rest).Perm [⟨2⟩, ⟨1⟩] ∧
      List.Sorted (fun a b => a.energy ≤ b.energy) (first :: rest) ∧
      (∀ t ∈ rest, first.energy ≤ t.energy) ∧
      split_energy [⟨2⟩, ⟨1⟩] 5 = ⟨first.energy + 5⟩ :: rest :=
  claim_C6.1 [⟨2⟩, ⟨1⟩] 5 (by simp)

/-- C7: the `Collision` variant is transient within a single `advance()` call:
whenever `advance` returns normally, no cell of the resulting grid is a
`Collision` cell. -/
theorem claim_C7 : ∀ (fuel : Nat) (g g' : GoodEvil),
    advance fuel g = .ok g' →
    has_collisions g'.board = false ∧
    ∀ (x y : Nat) (ss : List Specimen),
      g'.board.at x y ≠ some (Field.Collision ss) := by
  intro fuel g g' hok
  rcases advance_props hok with ⟨_, _, hcol, _⟩
  exact ⟨hcol, not_collision_at_of_no_collisions hcol⟩

/-- C7, witness: the concrete run of `c1_engine` ends with no Collision cell. -/
theorem claim_C7_witness :
    has_collisions c1_result.board = false ∧
    ∀ (x y : Nat) (ss : List Specimen),
      c1_result.board.at x y ≠ some (Field.Collision ss) :=
  claim_C7 10 c1_engine c1_result c1_run

/-- C8: a generation that leaves zero specimens triggers the fatal extinction
condition (never a silent empty board), and only then: `advance` returning
normally implies at least one specimen remains, a movement phase that leaves
zero specimens makes `advance` return the `extinct` fatal error, and if at
least one specimen remains after the movement phase, `advance` never triggers
the extinction condition (the `extinct` error arises from no other code path). -/
theorem claim_C8 :
    (∀ (fuel : Nat) (g g' : GoodEvil), advance fuel g = .ok g' →
      1 ≤ count_specimens g'.board)
    ∧ (∀ (fuel : Nat) (g : GoodEvil) (st : MoveState),
      movementFold g.cfg g.board g.board.indicesList
        ⟨g.collision_energy, g.rng,
          Board.new g.board.width g.board.height .Empty⟩ = .ok st →
      count_specimens st.new = 0 →
      advance fuel g = .error .extinct)
    ∧ (∀ (fuel : Nat) (g : GoodEvil) (st : MoveState),
      movementFold g.cfg g.board g.board.indicesList
        ⟨g.collision_energy, g.rng,
          Board.new g.board.width g.board.height .Empty⟩ = .ok st →
      1 ≤ count_specimens st.new →
      advance fuel g ≠ .error .extinct) := by
  refine ⟨?_, ?_, ?_⟩
  · intro fuel g g' hok
    exact (advance_props hok).2.2.2
  · intro fuel g st hmv hz
    exact advance_extinct_aux hmv hz
  · intro fuel g st hmv hone h
    rcases advance_extinct_only h with ⟨st', hmv', hz⟩
    rw [hmv] at hmv'
    injection hmv' with he
    rw [← he] at hz
    omega

/-- C8, witness: the concrete surviving run keeps one specimen and does not
trigger the extinction error, while the concrete run whose specimen dies
returns the extinction error. -/
theorem claim_C8_witness :
    1 ≤ count_specimens c1_result.board ∧
    advance 3 c8_engine = .error .extinct ∧
    advance 10 c1_engine ≠ .error .extinct :=
  ⟨claim_C8.1 10 c1_engine c1_result c1_run,
   claim_C8.2.1 3 c8_engine c8_st c8_mv c8_count,
   claim_C8.2.2 10 c1_engine ⟨1, ⟨fun _ => 0, 2⟩, c1_result.board⟩ c1_mv
     (by decide)⟩

/-- C9: on an `N×N` torus with `N ≥ 3`, `torus_neighbors(x, y, N, N)` yields
exactly the 8 pairwise-distinct wrapped coordinates of the 3×3 block around
`(x, y)` in raster order over the local offsets, skipping and never producing
the center; the three concrete 3×3 enumerations of the spec hold verbatim. -/
theorem claim_C9 :
    (∀ (N x y : Nat), 3 ≤ N → x < N → y < N →
      torus_neighbors x y N N = some (torusExpected x y N) ∧
      (torusExpected x y N).length = 8 ∧
      (torusExpected x y N).Nodup ∧
      (x, y) ∉ torusExpected x y N)
    ∧ torus_neighbors 1 1 3 3
        = some [(0, 0), (1, 0), (2, 0), (0, 1), (2, 1), (0, 2), (1, 2), (2, 2)]
    ∧ torus_neighbors 0 0 3 3
        = some [(2, 2), (0, 2), (1, 2), (2, 0), (1, 0), (2, 1), (0, 1), (1, 1)]
    ∧ torus_neighbors 2 2 3 3
        = some [(1, 1), (2, 1), (0, 1), (1, 2), (0, 2), (1, 0), (2, 0), (0, 0)] := by
  refine ⟨?_, by decide, by decide, by decide⟩
  intro N x y hN hx hy
  exact ⟨torus_neighbors_eq hN hx hy, torusExpected_length x y N,
    torusExpected_nodup hN hx hy, torusExpected_not_center hN hx hy⟩

/-- C9, witness: the general enumeration property at `N = 5`, `(x, y) = (4, 2)`. -/
theorem claim_C9_witness :
    torus_neighbors 4 2 5 5 = some (torusExpected 4 2 5) ∧
    (torusExpected 4 2 5).length = 8 ∧
    (torusExpected 4 2 5).Nodup ∧
    (4, 2) ∉ torusExpected 4 2 5 :=
  claim_C9.1 5 4 2 (by decide) (by decide) (by decide)

/-- C10: a resolution pass that returns normally (the re-placement assertion
did not fire) re-places every specimen: the specimen count of the produced
grid equals the specimen count of the input grid exactly. -/
theorem claim_C10 :
    ∀ (ce : ℚ) (rng : Rng) (old b' : Board Field) (rng' : Rng),
      old.Wf → resolve_collisions ce rng old = .ok (b', rng') →
      count_specimens b' = count_specimens old := by
  intro ce rng old b' rng' hwf hok
  rcases resolve_collisions_props hok hwf with ⟨_, _, _, _, hcnt, _⟩
  rw [count_specimens_eq, count_specimens_eq, hcnt]

/-- C10, witness: the concrete pass on `c10_old` preserves the count (2). -/
theorem claim_C10_witness :
    count_specimens c10_new = count_specimens c10_old :=
  claim_C10 4 rng0 c10_old c10_new ⟨fun _ => 0, 4⟩ rfl c10_run

end ModelCell
